import Mathlib

/-!
Verification of the metrics-and-diagnostics engine of the
`go-code-health-analyzer` repository.

The Go sources are shallowly embedded: Go maps become association lists
(with Go's zero-value-on-missing-key lookup semantics), Go `int` becomes
`Int` (or `Nat` where the source only ever stores counts), Go `float64`
becomes `Rat` (exact field arithmetic standing in for IEEE doubles), and
the `go/ast` node kinds that the analyzers inspect become a small mutual
inductive family.  Recursive Go functions whose termination depends on a
data-structure invariant (union-find `find`, the dependency-depth DFS)
are embedded with an explicit fuel parameter that the top-level entry
points instantiate with a provably sufficient bound.
-/

namespace HealthAnalyzer

/-! ### Association-list helpers (Go map semantics)

`alget` is Go's `m[k]` (returning a default zero value for a missing
key); `alset` is Go's `m[k] = v` (overwriting the first binding in
place, appending a fresh binding otherwise); `hasKey` is Go's
`_, ok := m[k]` test. -/

def alget {β : Type} (l : List (String × β)) (k : String) (d : β) : β :=
  match l.find? (fun p => p.1 = k) with
  | some p => p.2
  | none => d

def alset {β : Type} : List (String × β) → String → β → List (String × β)
  | [], k, v => [(k, v)]
  | (k', v') :: rest, k, v =>
    if k' = k then (k', v) :: rest else (k', v') :: alset rest k v

def hasKey {β : Type} (l : List (String × β)) (k : String) : Bool :=
  (l.find? (fun p => p.1 = k)).isSome

def alkeys {β : Type} (l : List (String × β)) : List String :=
  l.map Prod.fst

/-! ### Union-Find (analyzer/lcom4.go)

`unionFind` mirrors the Go struct of the same name: string-keyed
`parent` and `rank` maps, path compression in `find`, union by rank in
`union`.  The Go `find` recurses until it reaches a self-parented root;
its termination relies on the acyclicity invariant of the structure, so
the embedding threads a fuel argument which `find` instantiates with
`parent.length + 1`, a bound proved sufficient for well-formed states
below. -/

structure unionFind where
  parent : List (String × String)
  rank : List (String × Nat)
deriving Repr, DecidableEq

def newUnionFind : unionFind := { parent := [], rank := [] }

def unionFind.keys (uf : unionFind) : List String := alkeys uf.parent

def unionFind.add (uf : unionFind) (node : String) : unionFind :=
  if hasKey uf.parent node then uf
  else { parent := alset uf.parent node node, rank := alset uf.rank node 0 }

def unionFind.findAux : Nat → unionFind → String → String × unionFind
  | 0, uf, node => (node, uf)
  | fuel + 1, uf, node =>
    let p := alget uf.parent node ""
    if p = node then (node, uf)
    else
      let r := unionFind.findAux fuel uf p
      (r.1, { r.2 with parent := alset r.2.parent node r.1 })

def unionFind.find (uf : unionFind) (node : String) : String × unionFind :=
  unionFind.findAux (uf.parent.length + 1) uf node

def unionFind.union (uf : unionFind) (node1 node2 : String) : unionFind :=
  let f1 := uf.find node1
  let root1 := f1.1
  let f2 := f1.2.find node2
  let root2 := f2.1
  let uf2 := f2.2
  if root1 = root2 then uf2
  else
    let rank1 := alget uf2.rank root1 0
    let rank2 := alget uf2.rank root2 0
    if rank1 < rank2 then { uf2 with parent := alset uf2.parent root1 root2 }
    else if rank2 < rank1 then { uf2 with parent := alset uf2.parent root2 root1 }
    else { parent := alset uf2.parent root2 root1,
           rank := alset uf2.rank root1 (rank1 + 1) }

/-- Go's `getComponents` iterates the keys of `uf.parent` (the embedding
fixes the nondeterministic map order to insertion order), groups each
node under its root, and returns the groups. -/
def unionFind.getComponentsAux (uf : unionFind) :
    List (String × List String) × unionFind :=
  uf.keys.foldl
    (fun acc node =>
      let f := acc.2.find node
      (alset acc.1 f.1 (alget acc.1 f.1 [] ++ [node]), f.2))
    ([], uf)

def unionFind.getComponents (uf : unionFind) : List (List String) :=
  (uf.getComponentsAux).1.map Prod.snd

/-! ### Metric result records (analyzer/types.go and constructor sites)

`StructResult`, `MethodCluster`, `MethodClusterAnalysis` and
`FieldMatrixAnalysis` carry the fields the source constructs; the
human-readable `Message` strings of diagnostics are presentation-only
(the spec directs tests at the `Evidence` map) and are not modelled. -/

structure MethodCluster where
  ID : Nat
  Methods : List String
  Size : Nat
  CalledBy : List String := []
  ResponsibilityHint : String := ""
deriving Repr, DecidableEq

structure MethodClusterAnalysis where
  TotalPrivateMethods : Nat
  ClusterCount : Nat
  Clusters : List MethodCluster
  HasMultipleIslands : Bool
deriving Repr, DecidableEq

structure FieldMatrixAnalysis where
  Matrix : List (List Int)
  MethodNames : List String
  FieldNames : List String
  EstimatedClusters : Nat
  ExplainedVariance : List Rat
  HasMultipleResponsibilities : Bool
  Recommendations : String
deriving Repr, DecidableEq

structure StructResult where
  StructName : String
  FilePath : String
  LCOM4Score : Int
  ComponentDetails : List (List String)
  MethodClusters : Option MethodClusterAnalysis := none
  FieldMatrix : Option FieldMatrixAnalysis := none
deriving Repr, DecidableEq

structure FunctionResult where
  FuncName : String
  FilePath : String
  Complexity : Int
  LoC : Int
  Dependencies : List String := []
  InternalDeps : List String := []
  ExternalDeps : List String := []
  DependencyCount : Int := 0
  Efferent : Int := 0
  Afferent : Int := 0
  Instability : Rat := 0
deriving Repr, DecidableEq

structure PackageResult where
  Name : String
  Path : String
  Afferent : Int
  Efferent : Int
  Instability : Rat
  Structs : List StructResult
  Functions : List FunctionResult
  TotalLoC : Int := 0
  AvgFuncLoC : Rat := 0
  FuncCount : Int := 0
  FileCount : Int := 0
  DependencyDepth : Nat := 0
deriving Repr, DecidableEq

/-! ### Cohesion analyzer (analyzer/lcom4.go)

The front half of `calculateStructLCOM4` extracts the field list and the
methods' used-field sets from the `go/ast` tree; that extraction is the
external parser collaborator's contract, so the embedding starts from
its output: the struct's ordered field list and, per method, the set of
struct fields the method body reads or writes (any recorded usage,
weight at least 1, makes the method touch the field). -/

structure methodInfo where
  name : String
  usedFields : List String
deriving Repr, DecidableEq

def calculateStructLCOM4 (structName : String) (fileName : String)
    (fields : List String) (methods : List methodInfo) : StructResult :=
  if methods.length = 0 then
    { StructName := structName
      FilePath := fileName
      LCOM4Score := 0
      ComponentDetails := [] }
  else
    let uf0 := methods.foldl (fun uf m => uf.add m.name) newUnionFind
    let uf1 := fields.foldl (fun uf f => uf.add f) uf0
    let uf2 := methods.foldl
      (fun uf m => m.usedFields.foldl (fun u f => u.union m.name f) uf) uf1
    let components := uf2.getComponents
    { StructName := structName
      FilePath := fileName
      LCOM4Score := components.length
      ComponentDetails := components }

/-! ### Method responsibility clustering (analyzer/method_clustering.go)

`findMethodClusters` is embedded from the call-graph stage onward (the
AST extraction of `extractAllMethods` is parser-collaborator territory).
The source computes `ratioBasedMin` from `MinClusterRatio` but never
assigns it to `minSize`; the embedding reproduces that dead computation
verbatim. -/

structure methodCallInfo where
  name : String
  isPrivate : Bool
  calls : List (String × Nat)
  calledBy : List String := []
  receiverName : String := ""
  isUtility : Bool
deriving Repr, DecidableEq

def WeightThreshold : Nat := 1
def MinClusterSize : Nat := 2
def MinClusterRatio : Rat := 2/10

/-! Go sorts components with `sort.Strings` and clusters with
`sort.Slice`; the embedding uses a structural insertion sort (stable,
kernel-reducible) as its deterministic stand-in, comparing strings
lexicographically per character. -/

def insertSorted {α : Type} (le : α → α → Bool) (x : α) : List α → List α
  | [] => [x]
  | y :: rest => if le x y then x :: y :: rest else y :: insertSorted le x rest

def sortBy {α : Type} (le : α → α → Bool) (l : List α) : List α :=
  l.foldr (insertSorted le) []

def charListLe : List Char → List Char → Bool
  | [], _ => true
  | _ :: _, [] => false
  | c1 :: r1, c2 :: r2 =>
    if c1.toNat < c2.toNat then true
    else if c2.toNat < c1.toNat then false
    else charListLe r1 r2

def strLe (a b : String) : Bool := charListLe a.toList b.toList

def sortStrings (l : List String) : List String :=
  sortBy strLe l

def findMethodClusters (callGraph : List (String × List (String × Nat)))
    (privateMethods : List (String × methodCallInfo)) : List MethodCluster :=
  let st := privateMethods.foldl
    (fun (acc : unionFind × Nat) p =>
      if p.2.isUtility then acc else (acc.1.add p.1, acc.2 + 1))
    (newUnionFind, 0)
  let totalMethods := st.2
  let uf := callGraph.foldl
    (fun uf entry => entry.2.foldl (fun u callee => u.union entry.1 callee.1) uf)
    st.1
  let components := uf.getComponents
  let minSize := MinClusterSize
  let _ratioBasedMin :=
    if totalMethods > 0 then
      max MinClusterSize ((MinClusterRatio * (totalMethods : Rat)).floor.toNat)
    else 0
  let clusters := components.foldl
    (fun (cl : List MethodCluster) component =>
      if component.length ≥ minSize ∨ components.length = 1 then
        cl ++ [{ ID := cl.length + 1
                 Methods := sortStrings component
                 Size := component.length }]
      else cl)
    []
  let sorted := sortBy (fun a b => b.Size ≤ a.Size) clusters
  sorted.enum.map fun p => { p.2 with ID := p.1 + 1 }

/-! ### Coupling metrics (analyzer/coupling.go) -/

structure PackageDependency where
  PkgPath : String
  Imports : List String
  ImportedBy : List String
deriving Repr, DecidableEq

structure CouplingMetrics where
  Afferent : Int
  Efferent : Int
  Instability : Rat
deriving Repr, DecidableEq

/-- Go's `strings.HasPrefix(s, pre)`, computed on the underlying
character lists so that concrete instances reduce inside the kernel. -/
def strStartsWith (s pre : String) : Bool := pre.toList.isPrefixOf s.toList

def CalculateCoupling (pkgDeps : List (String × PackageDependency))
    (proj : String) : List (String × CouplingMetrics) :=
  pkgDeps.foldl
    (fun acc p =>
      let ca : Nat := (p.2.ImportedBy.filter (fun s => strStartsWith s proj)).length
      let ce : Nat := (p.2.Imports.filter (fun s => strStartsWith s proj)).length
      let instability : Rat :=
        if ca + ce > 0 then (ce : Rat) / ((ca : Rat) + (ce : Rat)) else 0
      alset acc p.1 ⟨(ca : Int), (ce : Int), instability⟩)
    []

/-- Final pass of `CalculateComplexity` (analyzer/complexity.go lines
77-83): once afferent coupling has been filled in, each function's
instability is set to `Efferent / (Afferent + Efferent)` when the total
is positive and left at its zero initial value otherwise. -/
def applyInstability (results : List FunctionResult) : List FunctionResult :=
  results.map fun r =>
    let total := r.Afferent + r.Efferent
    if total > 0 then { r with Instability := (r.Efferent : Rat) / (total : Rat) }
    else r

/-! ### Dependency depth (CalculateDependencyDepth, src/unnamed/part_003)

The memoized DFS is embedded with explicit state (depths, visited,
inProgress) and fuel; Go map iteration over `pkgDeps` is fixed to the
association list's order.  The top-level entry point supplies fuel
`pkgDeps.length + 1`, enough for the recursion, whose depth is bounded
by the number of distinct packages on the `inProgress` stack. -/

structure DepthState where
  depths : List (String × Nat)
  visited : List String
  inProgress : List String
deriving Repr, DecidableEq

def fullToRelPath (pkgDeps : List (String × PackageDependency))
    (proj : String) : List (String × String) :=
  pkgDeps.foldl
    (fun acc p =>
      let fullPath := if p.1 = "" then proj else proj ++ "/" ++ p.1
      alset acc fullPath p.1)
    []

mutual

def dfsPkg (pkgDeps : List (String × PackageDependency)) (proj : String)
    (fullToRel : List (String × String)) (fuel : Nat) (st : DepthState)
    (pkgPath : String) : Nat × DepthState :=
  match fuel with
  | 0 => (0, st)
  | fuel' + 1 =>
    if pkgPath ∈ st.visited then (alget st.depths pkgPath 0, st)
    else if pkgPath ∈ st.inProgress then (0, st)
    else
      let st1 : DepthState := { st with inProgress := pkgPath :: st.inProgress }
      let dep? := (pkgDeps.find? (fun p => p.1 = pkgPath)).map Prod.snd
      let r : Nat × DepthState :=
        match dep? with
        | none => (0, st1)
        | some dep => dfsImports pkgDeps proj fullToRel fuel' st1 dep.Imports
      let hasImports : Bool :=
        match dep? with
        | none => false
        | some dep => decide (dep.Imports.length > 0)
      let d := if r.1 > 0 ∨ hasImports = true then r.1 + 1 else 0
      (d, { depths := alset r.2.depths pkgPath d
            visited := pkgPath :: r.2.visited
            inProgress := r.2.inProgress.erase pkgPath })
termination_by (fuel, 0)

def dfsImports (pkgDeps : List (String × PackageDependency)) (proj : String)
    (fullToRel : List (String × String)) (fuel : Nat) (st : DepthState)
    (imports : List String) : Nat × DepthState :=
  match imports with
  | [] => (0, st)
  | importPath :: rest =>
    if strStartsWith importPath proj then
      match fullToRel.find? (fun p => p.1 = importPath) with
      | some rel =>
        let c := dfsPkg pkgDeps proj fullToRel fuel st rel.2
        let r := dfsImports pkgDeps proj fullToRel fuel c.2 rest
        (max c.1 r.1, r.2)
      | none => dfsImports pkgDeps proj fullToRel fuel st rest
    else dfsImports pkgDeps proj fullToRel fuel st rest
termination_by (fuel, imports.length + 1)

end

def CalculateDependencyDepth (pkgDeps : List (String × PackageDependency))
    (proj : String) : List (String × Nat) :=
  let fullToRel := fullToRelPath pkgDeps proj
  let final := pkgDeps.foldl
    (fun (st : DepthState) p =>
      if p.1 ∈ st.visited then st
      else (dfsPkg pkgDeps proj fullToRel (pkgDeps.length + 1) st p.1).2)
    ⟨[], [], []⟩
  final.depths

/-! ### Go AST fragment and cyclomatic complexity (analyzer/complexity.go)

`calculateFunctionComplexity` walks every node of the function body with
`ast.Inspect` and bumps a counter for the node kinds below.  The
embedding models the statement/expression sublanguage those analyzers
inspect: `if`, `for`, `range`, `switch`, type switch, `select`, their
clauses, and expressions built from identifiers, literals, selectors,
calls, parentheses, unary and binary operators. -/

inductive GoOp where
  | land
  | lor
  | arith
deriving Repr, DecidableEq

mutual

inductive GoExpr where
  | ident : String → GoExpr
  | lit : String → GoExpr
  | selector : GoExpr → String → GoExpr
  | paren : GoExpr → GoExpr
  | unary : GoExpr → GoExpr
  | binary : GoOp → GoExpr → GoExpr → GoExpr
  | call : GoExpr → List GoExpr → GoExpr

inductive GoStmt where
  | exprStmt : GoExpr → GoStmt
  | assign : List GoExpr → List GoExpr → GoStmt
  | ret : List GoExpr → GoStmt
  | block : List GoStmt → GoStmt
  | ifStmt : Option GoStmt → GoExpr → List GoStmt → Option GoStmt → GoStmt
  | forStmt : Option GoStmt → Option GoExpr → Option GoStmt → List GoStmt → GoStmt
  | rangeStmt : GoExpr → List GoStmt → GoStmt
  | switchStmt : Option GoExpr → List GoCase → GoStmt
  | typeSwitchStmt : List GoCase → GoStmt
  | selectStmt : List GoComm → GoStmt

inductive GoCase where
  | mk : List GoExpr → List GoStmt → GoCase

inductive GoComm where
  | mk : Option GoStmt → List GoStmt → GoComm

end

/-! Single-pass decision-point count, mirroring the `ast.Inspect` switch
in `calculateFunctionComplexity`: each `if`, each `for`/`range` loop,
each `switch`/type-switch, each `case` clause with a non-empty match
list, each `select` case with a communication statement, and each
`&&`/`||` binary expression contributes 1; every other node contributes
0, and all children are traversed. -/

mutual

def exprPoints : GoExpr → Nat
  | .ident _ => 0
  | .lit _ => 0
  | .selector e _ => exprPoints e
  | .paren e => exprPoints e
  | .unary e => exprPoints e
  | .binary op l r =>
    (if op = .land ∨ op = .lor then 1 else 0) + exprPoints l + exprPoints r
  | .call f args => exprPoints f + exprListPoints args
termination_by e => sizeOf e

def exprListPoints : List GoExpr → Nat
  | [] => 0
  | e :: rest => exprPoints e + exprListPoints rest
termination_by l => sizeOf l

def optExprPoints : Option GoExpr → Nat
  | none => 0
  | some e => exprPoints e

def stmtPoints : GoStmt → Nat
  | .exprStmt e => exprPoints e
  | .assign lhs rhs => exprListPoints lhs + exprListPoints rhs
  | .ret es => exprListPoints es
  | .block body => stmtListPoints body
  | .ifStmt ini cond body els =>
    1 + optStmtPoints ini + exprPoints cond + stmtListPoints body + optStmtPoints els
  | .forStmt ini cond post body =>
    1 + optStmtPoints ini + optExprPoints cond + optStmtPoints post + stmtListPoints body
  | .rangeStmt x body => 1 + exprPoints x + stmtListPoints body
  | .switchStmt tag cases => 1 + optExprPoints tag + caseListPoints cases
  | .typeSwitchStmt cases => 1 + caseListPoints cases
  | .selectStmt comms => commListPoints comms
termination_by s => sizeOf s

def stmtListPoints : List GoStmt → Nat
  | [] => 0
  | s :: rest => stmtPoints s + stmtListPoints rest
termination_by l => sizeOf l

def optStmtPoints : Option GoStmt → Nat
  | none => 0
  | some s => stmtPoints s
termination_by o => sizeOf o

def casePoints : GoCase → Nat
  | .mk vals body =>
    (if vals.length > 0 then 1 else 0) + exprListPoints vals + stmtListPoints body
termination_by c => sizeOf c

def caseListPoints : List GoCase → Nat
  | [] => 0
  | c :: rest => casePoints c + caseListPoints rest
termination_by l => sizeOf l

def commPoints : GoComm → Nat
  | .mk comm body =>
    (match comm with
     | some _ => 1
     | none => 0) + optStmtPoints comm + stmtListPoints body
termination_by c => sizeOf c

def commListPoints : List GoComm → Nat
  | [] => 0
  | c :: rest => commPoints c + commListPoints rest
termination_by l => sizeOf l

end

structure FuncBody where
  stmts : List GoStmt
  lbraceLine : Int
  rbraceLine : Int

structure FuncDecl where
  name : String
  recvType : Option String := none
  body : Option FuncBody

def calculateFunctionComplexity (funcDecl : FuncDecl) : Nat :=
  match funcDecl.body with
  | none => 1
  | some b => 1 + stmtListPoints b.stmts

/-- Function lines of code (analyzer/loc.go `CalculateFunctionLoC`):
the body's closing-brace line minus its opening-brace line, clamped at
zero; a function without a body scores 0. -/
def CalculateFunctionLoC (funcDecl : FuncDecl) : Int :=
  match funcDecl.body with
  | none => 0
  | some b =>
    let lines := b.rbraceLine - b.lbraceLine
    if lines < 0 then 0 else lines

/-! ### Field-clustering estimate (estimateClusterCount, src/unnamed/part_003)

The eigenvalue spectrum itself comes out of the floating-point power
iteration; the claims under verification concern the discrete
combination step, embedded here over exact rationals. -/

def kaiserCount (eigenvalues : List Rat) : Nat :=
  eigenvalues.countP (fun ev => decide (ev > 1))

def elbowGo : List Rat → Nat → Nat → Nat
  | [], _, acc => acc
  | x :: rest, i, acc =>
    if x > 1/10 then elbowGo rest (i + 1) (i + 1) else acc

/-- Elbow heuristic: walk `explainedVariance[0 .. len-2]`, recording
`i + 1` while entry `i` exceeds 10%, stopping at the first entry at or
below it; starts (and bottoms out) at 1. -/
def elbowCount (explainedVariance : List Rat) : Nat :=
  elbowGo (explainedVariance.take (explainedVariance.length - 1)) 0 1

def varianceGo : List Rat → Rat → Nat → Nat
  | [], _, acc => acc
  | x :: rest, cumulative, i =>
    let c := cumulative + x
    if c ≥ 8/10 then i + 1 else varianceGo rest c (i + 1)

/-- Cumulative-variance cap: the shortest prefix whose explained
variance reaches 80% (the whole list's length if it never does, 0 for an
empty list). -/
def varianceCount (explainedVariance : List Rat) : Nat :=
  varianceGo explainedVariance 0 0

def estimateClusterCount (eigenvalues : List Rat)
    (explainedVariance : List Rat) : Nat :=
  if eigenvalues.length = 0 then 1
  else
    let estimate0 := kaiserCount eigenvalues
    let estimate1 :=
      if elbowCount explainedVariance > estimate0 then elbowCount explainedVariance
      else estimate0
    let estimate2 :=
      if varianceCount explainedVariance < estimate1 then varianceCount explainedVariance
      else estimate1
    let estimate3 := if estimate2 < 1 then 1 else estimate2
    if estimate3 > 5 then 5 else estimate3

/-- Tail of `AnalyzeFieldMatrix`: package the estimate into a
`FieldMatrixAnalysis`, flagging multiple responsibilities exactly when
the estimate is at least 2.  (The matrix build, PCA and recommendation
text feed in as parameters.) -/
def mkFieldMatrixAnalysis (matrix : List (List Int))
    (methodNames fieldNames : List String) (eigenvalues : List Rat)
    (explainedVariance : List Rat) (recommendations : String) :
    FieldMatrixAnalysis :=
  let estimatedClusters := estimateClusterCount eigenvalues explainedVariance
  { Matrix := matrix
    MethodNames := methodNames
    FieldNames := fieldNames
    EstimatedClusters := estimatedClusters
    ExplainedVariance := explainedVariance
    HasMultipleResponsibilities := decide (estimatedClusters ≥ 2)
    Recommendations := recommendations }

/-! ### Diagnostics engine (analyzer/diagnostics.go)

Six fixed rules run in order over all packages' results.  The
`map[string]interface{}` evidence maps become association lists over an
`EvidenceValue` sum; the rendered `Message` strings are presentation
(the spec directs assertions at the evidence) and are not modelled. -/

inductive EvidenceValue where
  | int : Int → EvidenceValue
  | nat : Nat → EvidenceValue
  | str : String → EvidenceValue
  | rat : Rat → EvidenceValue
  | strList : List String → EvidenceValue
  | ratList : List Rat → EvidenceValue
  | clusterList : List MethodCluster → EvidenceValue
deriving Repr, DecidableEq

structure DiagnosticResult where
  type : String
  TargetName : String
  Severity : String
  Evidence : List (String × EvidenceValue)
  RelatedPath : String
deriving Repr, DecidableEq

def detectGodObjects (packages : List PackageResult) : List DiagnosticResult :=
  packages.foldl
    (fun results pkg =>
      if pkg.Afferent < 10 then results
      else
        results ++ pkg.Structs.foldl
          (fun acc s =>
            if s.LCOM4Score ≥ 5 then
              acc ++ [{ type := "God Object"
                        TargetName := pkg.Name ++ "." ++ s.StructName
                        Severity := "Critical"
                        Evidence := [("lcom4_score", .int s.LCOM4Score),
                                     ("afferent", .int pkg.Afferent),
                                     ("package", .str pkg.Name),
                                     ("file_path", .str s.FilePath)]
                        RelatedPath := "#struct-" ++ pkg.Path ++ "-" ++ s.StructName }]
            else acc)
          [])
    []

def detectUnstableFoundations (packages : List PackageResult) : List DiagnosticResult :=
  packages.foldl
    (fun results pkg =>
      if pkg.Afferent ≥ 10 ∧ pkg.Instability ≥ 7/10 then
        results ++ [{ type := "Unstable Foundation"
                      TargetName := pkg.Name
                      Severity := "Critical"
                      Evidence := [("afferent", .int pkg.Afferent),
                                   ("efferent", .int pkg.Efferent),
                                   ("instability", .rat pkg.Instability),
                                   ("package", .str pkg.Name)]
                      RelatedPath := "#package-" ++ pkg.Path }]
      else results)
    []

def detectComplexFunctions (packages : List PackageResult) : List DiagnosticResult :=
  packages.foldl
    (fun results pkg =>
      results ++ pkg.Functions.foldl
        (fun acc f =>
          if f.Complexity ≥ 15 then
            acc ++ [{ type := "Overly Complex Function"
                      TargetName := pkg.Name ++ "." ++ f.FuncName
                      Severity := "Warning"
                      Evidence := [("complexity", .int f.Complexity),
                                   ("function", .str f.FuncName),
                                   ("package", .str pkg.Name),
                                   ("file_path", .str f.FilePath)]
                      RelatedPath := "#function-" ++ pkg.Path ++ "-" ++ f.FuncName }]
          else acc)
        [])
    []

/-- Methods of a struct are matched in `detectAmbiguousStructs` by the
`Struct.`-prefixed function name being strictly longer than the prefix
(Go: `len(funcName) > len(structPrefix) && funcName[:len(structPrefix)] ==
structPrefix`). -/
def isMethodOf (funcName structName : String) : Bool :=
  funcName.length > (structName ++ ".").length &&
    strStartsWith funcName (structName ++ ".")

def detectAmbiguousStructs (packages : List PackageResult) : List DiagnosticResult :=
  packages.foldl
    (fun results pkg =>
      let methodComplexity : List (String × Int) :=
        pkg.Functions.foldl (fun m f => alset m f.FuncName f.Complexity) []
      results ++ pkg.Structs.foldl
        (fun acc s =>
          if s.LCOM4Score < 3 then acc
          else
            let complexMethods := methodComplexity.foldl
              (fun cm p =>
                if isMethodOf p.1 s.StructName ∧ p.2 ≥ 10 then cm ++ [p.1] else cm)
              []
            if complexMethods.length > 0 then
              acc ++ [{ type := "Ambiguous Struct"
                        TargetName := pkg.Name ++ "." ++ s.StructName
                        Severity := "Warning"
                        Evidence := [("lcom4_score", .int s.LCOM4Score),
                                     ("complex_methods", .strList complexMethods),
                                     ("package", .str pkg.Name),
                                     ("file_path", .str s.FilePath)]
                        RelatedPath := "#struct-" ++ pkg.Path ++ "-" ++ s.StructName }]
            else acc)
        [])
    []

def detectMethodIslands (packages : List PackageResult) : List DiagnosticResult :=
  packages.foldl
    (fun results pkg =>
      results ++ pkg.Structs.foldl
        (fun acc s =>
          match s.MethodClusters with
          | none => acc
          | some mc =>
            if mc.HasMultipleIslands then
              acc ++ [{ type := "Split Responsibility (Method Islands)"
                        TargetName := pkg.Name ++ "." ++ s.StructName
                        Severity := "Warning"
                        Evidence := [("cluster_count", .nat mc.ClusterCount),
                                     ("total_private_methods", .nat mc.TotalPrivateMethods),
                                     ("clusters", .clusterList mc.Clusters),
                                     ("package", .str pkg.Name),
                                     ("file_path", .str s.FilePath)]
                        RelatedPath := "#struct-" ++ pkg.Path ++ "-" ++ s.StructName }]
            else acc)
        [])
    []

def detectFieldClusters (packages : List PackageResult) : List DiagnosticResult :=
  packages.foldl
    (fun results pkg =>
      results ++ pkg.Structs.foldl
        (fun acc s =>
          match s.FieldMatrix with
          | none => acc
          | some fm =>
            if fm.HasMultipleResponsibilities then
              acc ++ [{ type := "Split Responsibility (Field Clusters)"
                        TargetName := pkg.Name ++ "." ++ s.StructName
                        Severity := if fm.EstimatedClusters ≥ 3 then "Critical" else "Warning"
                        Evidence := [("estimated_clusters", .nat fm.EstimatedClusters),
                                     ("explained_variance", .ratList fm.ExplainedVariance),
                                     ("method_count", .nat fm.MethodNames.length),
                                     ("field_count", .nat fm.FieldNames.length),
                                     ("package", .str pkg.Name),
                                     ("file_path", .str s.FilePath),
                                     ("recommendations", .str fm.Recommendations)]
                        RelatedPath := "#struct-" ++ pkg.Path ++ "-" ++ s.StructName }]
            else acc)
        [])
    []

def PerformDiagnostics (packages : List PackageResult) : List DiagnosticResult :=
  detectGodObjects packages ++ detectUnstableFoundations packages ++
    detectComplexFunctions packages ++ detectAmbiguousStructs packages ++
    detectMethodIslands packages ++ detectFieldClusters packages

/-! ### Shared lemmas -/

theorem mem_alset {β : Type} (l : List (String × β)) (k : String) (v : β)
    (x : String × β) (hx : x ∈ alset l k v) : x ∈ l ∨ x = (k, v) := by
  induction l with
  | nil =>
    simp only [alset, List.mem_singleton] at hx
    exact Or.inr hx
  | cons hd tl ih =>
    obtain ⟨k', v'⟩ := hd
    simp only [alset] at hx
    by_cases h : k' = k
    · rw [if_pos h] at hx
      rcases List.mem_cons.mp hx with h1 | h1
      · exact Or.inr (by rw [h1, h])
      · exact Or.inl (List.mem_cons_of_mem _ h1)
    · rw [if_neg h] at hx
      rcases List.mem_cons.mp hx with h1 | h1
      · exact Or.inl (h1 ▸ List.mem_cons_self _ _)
      · rcases ih h1 with h2 | h2
        · exact Or.inl (List.mem_cons_of_mem _ h2)
        · exact Or.inr h2

/-! ### Claim theorems -/

/-- Claim C7: a struct with zero methods gets an `lcom4Score` of 0 and an
empty component list — an explicit not-applicable outcome, returned as an
ordinary `StructResult` (the function is total; there is no error path). -/
theorem lcom4_no_methods_scores_zero (structName fileName : String)
    (fields : List String) :
    (calculateStructLCOM4 structName fileName fields []).LCOM4Score = 0 ∧
      (calculateStructLCOM4 structName fileName fields []).ComponentDetails = [] := by
  constructor <;> rfl

/-- Claim C6: package-level instability (from `CalculateCoupling`) and
function-level instability (from the final pass of `CalculateComplexity`)
always lie in `[0, 1]`, and are exactly 0 whenever afferent + efferent
coupling is 0.  Function results enter the instability pass with the zero
initial instability and nonnegative counts they are constructed with. -/
theorem instability_bounds :
    (∀ (pkgDeps : List (String × PackageDependency)) (proj : String)
       (pkgPath : String) (m : CouplingMetrics),
       (pkgPath, m) ∈ CalculateCoupling pkgDeps proj →
       0 ≤ m.Instability ∧ m.Instability ≤ 1 ∧
         (m.Afferent + m.Efferent = 0 → m.Instability = 0)) ∧
    (∀ (results : List FunctionResult) (r : FunctionResult),
       r ∈ applyInstability results →
       (∀ f ∈ results, f.Instability = 0 ∧ 0 ≤ f.Afferent ∧ 0 ≤ f.Efferent) →
       0 ≤ r.Instability ∧ r.Instability ≤ 1 ∧
         (r.Afferent + r.Efferent = 0 → r.Instability = 0)) := by
  constructor
  · intro pkgDeps proj pkgPath m hm
    unfold CalculateCoupling at hm
    have key := List.foldlRecOn
      (motive := fun (l : List (String × CouplingMetrics)) => ∀ x ∈ l,
        0 ≤ x.2.Instability ∧ x.2.Instability ≤ 1 ∧
          (x.2.Afferent + x.2.Efferent = 0 → x.2.Instability = 0))
      pkgDeps
      (fun acc p =>
        let ca : Nat := (p.2.ImportedBy.filter (fun s => strStartsWith s proj)).length
        let ce : Nat := (p.2.Imports.filter (fun s => strStartsWith s proj)).length
        let instability : Rat :=
          if ca + ce > 0 then (ce : Rat) / ((ca : Rat) + (ce : Rat)) else 0
        alset acc p.1 ⟨(ca : Int), (ce : Int), instability⟩)
      [] (by simp)
      (by
        intro acc hacc p _ x hx
        rcases mem_alset _ _ _ x hx with h | h
        · exact hacc x h
        · subst h
          simp only
          set ca : Nat := (p.2.ImportedBy.filter (fun s => strStartsWith s proj)).length with hca
          set ce : Nat := (p.2.Imports.filter (fun s => strStartsWith s proj)).length with hce
          by_cases hpos : ca + ce > 0
          · refine ⟨?_, ?_, ?_⟩
            · simp only [if_pos hpos]
              positivity
            · simp only [if_pos hpos]
              have hden : (0 : Rat) < (ca : Rat) + (ce : Rat) := by
                have : (0 : Rat) < ((ca + ce : Nat) : Rat) := by
                  exact_mod_cast hpos
                push_cast at this
                linarith
              rw [div_le_one hden]
              have : (0 : Rat) ≤ (ca : Rat) := by positivity
              linarith
            · intro habs
              exfalso
              have : ((ca : Int) + (ce : Int)) = 0 := habs
              omega
          · simp only [if_neg hpos]
            refine ⟨le_refl 0, by norm_num, fun _ => by trivial⟩)
    exact key (pkgPath, m) hm
  · intro results r hr h0
    unfold applyInstability at hr
    rcases List.mem_map.mp hr with ⟨f, hf, hfr⟩
    obtain ⟨hzero, haff, heff⟩ := h0 f hf
    by_cases hpos : f.Afferent + f.Efferent > 0
    · simp only [if_pos hpos] at hfr
      subst hfr
      refine ⟨?_, ?_, ?_⟩
      · simp only
        apply div_nonneg
        · exact_mod_cast heff
        · have : (0 : Int) ≤ f.Afferent + f.Efferent := le_of_lt hpos
          exact_mod_cast this
      · simp only
        have hden : (0 : Rat) < ((f.Afferent + f.Efferent : Int) : Rat) := by
          exact_mod_cast hpos
        rw [div_le_one hden]
        have : ((f.Efferent : Int) : Rat) ≤ ((f.Afferent + f.Efferent : Int) : Rat) := by
          have : f.Efferent ≤ f.Afferent + f.Efferent := by omega
          exact_mod_cast this
        exact this
      · intro habs
        simp only at habs
        omega
    · simp only [if_neg hpos] at hfr
      subst hfr
      refine ⟨le_of_eq hzero.symm, ?_, fun _ => hzero⟩
      rw [hzero]
      norm_num

/-- Witness for C6: a package with no in-project imports or importers
gets instability 0, and likewise for a function with zero coupling. -/
theorem instability_bounds_witness :
    (0 ≤ (CouplingMetrics.mk 0 0 0).Instability ∧
      (CouplingMetrics.mk 0 0 0).Instability ≤ 1 ∧
      ((CouplingMetrics.mk 0 0 0).Afferent + (CouplingMetrics.mk 0 0 0).Efferent = 0 →
        (CouplingMetrics.mk 0 0 0).Instability = 0)) ∧
    (0 ≤ (FunctionResult.mk "F" "f.go" 1 0 [] [] [] 0 0 0 0).Instability ∧
      (FunctionResult.mk "F" "f.go" 1 0 [] [] [] 0 0 0 0).Instability ≤ 1 ∧
      ((FunctionResult.mk "F" "f.go" 1 0 [] [] [] 0 0 0 0).Afferent +
          (FunctionResult.mk "F" "f.go" 1 0 [] [] [] 0 0 0 0).Efferent = 0 →
        (FunctionResult.mk "F" "f.go" 1 0 [] [] [] 0 0 0 0).Instability = 0)) := by
  constructor
  · exact instability_bounds.1 [("p", ⟨"p", ["ext/q"], []⟩)] "m" "p" ⟨0, 0, 0⟩ (by decide)
  · exact instability_bounds.2 [⟨"F", "f.go", 1, 0, [], [], [], 0, 0, 0, 0⟩]
      ⟨"F", "f.go", 1, 0, [], [], [], 0, 0, 0, 0⟩ (by decide) (by decide)

/-- Claim C8: the estimated cluster count is `max(Kaiser, elbow)` clamped
down to the cumulative-variance cap and clamped into `[1, 5]`, and the
multiple-responsibilities flag is set exactly when the estimate is at
least 2.  The hypothesis records that the caller
(`estimateClustersViaPCA`) produces an explained-variance list of the
same length as the eigenvalue list, hence empty when it is empty. -/
theorem estimate_cluster_count_formula (matrix : List (List Int))
    (methodNames fieldNames : List String)
    (eigenvalues explainedVariance : List Rat) (recs : String)
    (hlen : eigenvalues = [] → explainedVariance = []) :
    (mkFieldMatrixAnalysis matrix methodNames fieldNames eigenvalues
        explainedVariance recs).EstimatedClusters =
      min 5 (max 1 (min (max (kaiserCount eigenvalues) (elbowCount explainedVariance))
        (varianceCount explainedVariance))) ∧
    ((mkFieldMatrixAnalysis matrix methodNames fieldNames eigenvalues
        explainedVariance recs).HasMultipleResponsibilities = true ↔
      2 ≤ estimateClusterCount eigenvalues explainedVariance) := by
  have hmain : estimateClusterCount eigenvalues explainedVariance =
      min 5 (max 1 (min (max (kaiserCount eigenvalues) (elbowCount explainedVariance))
        (varianceCount explainedVariance))) := by
    unfold estimateClusterCount
    by_cases hevs : eigenvalues.length = 0
    · rw [if_pos hevs]
      have hnil : eigenvalues = [] := List.length_eq_zero.mp hevs
      have hnil2 : explainedVariance = [] := hlen hnil
      subst hnil
      subst hnil2
      decide
    · rw [if_neg hevs]
      simp only
      split_ifs <;> omega
  constructor
  · rw [← hmain]; rfl
  · show decide (estimateClusterCount eigenvalues explainedVariance ≥ 2) = true ↔ _
    rw [decide_eq_true_iff]

/-- Witness for C8: spectrum `[3, 1/2]` with explained variance
`[6/7, 1/7]` — Kaiser 1, elbow 1, variance cap 1, estimate 1, flag off. -/
theorem estimate_cluster_count_formula_witness :
    (mkFieldMatrixAnalysis [] [] [] [3, 1/2] [6/7, 1/7] "").EstimatedClusters =
      min 5 (max 1 (min (max (kaiserCount [3, 1/2]) (elbowCount [6/7, 1/7]))
        (varianceCount [6/7, 1/7]))) ∧
    ((mkFieldMatrixAnalysis [] [] [] [3, 1/2] [6/7, 1/7] "").HasMultipleResponsibilities = true ↔
      2 ≤ estimateClusterCount [3, 1/2] [6/7, 1/7]) :=
  estimate_cluster_count_formula [] [] [] [3, 1/2] [6/7, 1/7] ""
    (by intro h; simp at h)

/-! ### Specification-side decision-point counters

The spec characterises complexity as one increment per construct kind.
`exprCount`/`stmtCount`/... count the occurrences of a single kind `k`
in a subtree; the claim compares the analyzer's single-pass count with
the sum of the six per-kind counts. -/

inductive DKind where
  | dIf
  | dLoop
  | dSwitch
  | dCase
  | dComm
  | dLogic
deriving Repr, DecidableEq

mutual

def exprCount (k : DKind) : GoExpr → Nat
  | .ident _ => 0
  | .lit _ => 0
  | .selector e _ => exprCount k e
  | .paren e => exprCount k e
  | .unary e => exprCount k e
  | .binary op l r =>
    (if k = .dLogic ∧ (op = .land ∨ op = .lor) then 1 else 0) +
      exprCount k l + exprCount k r
  | .call f args => exprCount k f + exprListCount k args
termination_by e => sizeOf e

def exprListCount (k : DKind) : List GoExpr → Nat
  | [] => 0
  | e :: rest => exprCount k e + exprListCount k rest
termination_by l => sizeOf l

def optExprCount (k : DKind) : Option GoExpr → Nat
  | none => 0
  | some e => exprCount k e

def stmtCount (k : DKind) : GoStmt → Nat
  | .exprStmt e => exprCount k e
  | .assign lhs rhs => exprListCount k lhs + exprListCount k rhs
  | .ret es => exprListCount k es
  | .block body => stmtListCount k body
  | .ifStmt ini cond body els =>
    (if k = .dIf then 1 else 0) + optStmtCount k ini + exprCount k cond +
      stmtListCount k body + optStmtCount k els
  | .forStmt ini cond post body =>
    (if k = .dLoop then 1 else 0) + optStmtCount k ini + optExprCount k cond +
      optStmtCount k post + stmtListCount k body
  | .rangeStmt x body =>
    (if k = .dLoop then 1 else 0) + exprCount k x + stmtListCount k body
  | .switchStmt tag cases =>
    (if k = .dSwitch then 1 else 0) + optExprCount k tag + caseListCount k cases
  | .typeSwitchStmt cases =>
    (if k = .dSwitch then 1 else 0) + caseListCount k cases
  | .selectStmt comms => commListCount k comms
termination_by s => sizeOf s

def stmtListCount (k : DKind) : List GoStmt → Nat
  | [] => 0
  | s :: rest => stmtCount k s + stmtListCount k rest
termination_by l => sizeOf l

def optStmtCount (k : DKind) : Option GoStmt → Nat
  | none => 0
  | some s => stmtCount k s
termination_by o => sizeOf o

def caseCount (k : DKind) : GoCase → Nat
  | .mk vals body =>
    (if k = .dCase ∧ vals.length > 0 then 1 else 0) +
      exprListCount k vals + stmtListCount k body
termination_by c => sizeOf c

def caseListCount (k : DKind) : List GoCase → Nat
  | [] => 0
  | c :: rest => caseCount k c + caseListCount k rest
termination_by l => sizeOf l

def commCount (k : DKind) : GoComm → Nat
  | .mk comm body =>
    (if k = .dComm ∧ comm.isSome then 1 else 0) +
      optStmtCount k comm + stmtListCount k body
termination_by c => sizeOf c

def commListCount (k : DKind) : List GoComm → Nat
  | [] => 0
  | c :: rest => commCount k c + commListCount k rest
termination_by l => sizeOf l

end

/-- Per-spec decision points of a function body: the sum over the six
counted construct kinds — `if` statements, loops, switches, non-default
cases, non-empty select cases, and logical and/or operators. -/
def specDecisionPoints (stmts : List GoStmt) : Nat :=
  stmtListCount .dIf stmts + stmtListCount .dLoop stmts +
    stmtListCount .dSwitch stmts + stmtListCount .dCase stmts +
    stmtListCount .dComm stmts + stmtListCount .dLogic stmts

mutual

theorem exprPoints_eq_sum (e : GoExpr) :
    exprPoints e = exprCount .dIf e + exprCount .dLoop e + exprCount .dSwitch e +
      exprCount .dCase e + exprCount .dComm e + exprCount .dLogic e := by
  cases e with
  | ident s => simp [exprPoints, exprCount]
  | lit s => simp [exprPoints, exprCount]
  | selector e f =>
    have h := exprPoints_eq_sum e
    simp [exprPoints, exprCount, h]
  | paren e =>
    have h := exprPoints_eq_sum e
    simp [exprPoints, exprCount, h]
  | unary e =>
    have h := exprPoints_eq_sum e
    simp [exprPoints, exprCount, h]
  | binary op l r =>
    have hl := exprPoints_eq_sum l
    have hr := exprPoints_eq_sum r
    cases op <;> simp [exprPoints, exprCount, hl, hr] <;> omega
  | call f args =>
    have hf := exprPoints_eq_sum f
    have ha := exprListPoints_eq_sum args
    simp [exprPoints, exprCount, hf, ha]
    omega
termination_by sizeOf e

theorem exprListPoints_eq_sum (l : List GoExpr) :
    exprListPoints l = exprListCount .dIf l + exprListCount .dLoop l +
      exprListCount .dSwitch l + exprListCount .dCase l + exprListCount .dComm l +
      exprListCount .dLogic l := by
  cases l with
  | nil => simp [exprListPoints, exprListCount]
  | cons e rest =>
    have he := exprPoints_eq_sum e
    have hr := exprListPoints_eq_sum rest
    simp [exprListPoints, exprListCount, he, hr]
    omega
termination_by sizeOf l

theorem optExprPoints_eq_sum (o : Option GoExpr) :
    optExprPoints o = optExprCount .dIf o + optExprCount .dLoop o +
      optExprCount .dSwitch o + optExprCount .dCase o + optExprCount .dComm o +
      optExprCount .dLogic o := by
  cases o with
  | none => simp [optExprPoints, optExprCount]
  | some e =>
    have h := exprPoints_eq_sum e
    simp [optExprPoints, optExprCount, h]

theorem stmtPoints_eq_sum (s : GoStmt) :
    stmtPoints s = stmtCount .dIf s + stmtCount .dLoop s + stmtCount .dSwitch s +
      stmtCount .dCase s + stmtCount .dComm s + stmtCount .dLogic s := by
  cases s with
  | exprStmt e =>
    have h := exprPoints_eq_sum e
    simp [stmtPoints, stmtCount, h]
  | assign lhs rhs =>
    have h1 := exprListPoints_eq_sum lhs
    have h2 := exprListPoints_eq_sum rhs
    simp [stmtPoints, stmtCount, h1, h2]
    omega
  | ret es =>
    have h := exprListPoints_eq_sum es
    simp [stmtPoints, stmtCount, h]
  | block body =>
    have h := stmtListPoints_eq_sum body
    simp [stmtPoints, stmtCount, h]
  | ifStmt ini cond body els =>
    have h1 := optStmtPoints_eq_sum ini
    have h2 := exprPoints_eq_sum cond
    have h3 := stmtListPoints_eq_sum body
    have h4 := optStmtPoints_eq_sum els
    simp [stmtPoints, stmtCount, h1, h2, h3, h4]
    omega
  | forStmt ini cond post body =>
    have h1 := optStmtPoints_eq_sum ini
    have h2 := optExprPoints_eq_sum cond
    have h3 := optStmtPoints_eq_sum post
    have h4 := stmtListPoints_eq_sum body
    simp [stmtPoints, stmtCount, h1, h2, h3, h4]
    omega
  | rangeStmt x body =>
    have h1 := exprPoints_eq_sum x
    have h2 := stmtListPoints_eq_sum body
    simp [stmtPoints, stmtCount, h1, h2]
    omega
  | switchStmt tag cases =>
    have h1 := optExprPoints_eq_sum tag
    have h2 := caseListPoints_eq_sum cases
    simp [stmtPoints, stmtCount, h1, h2]
    omega
  | typeSwitchStmt cases =>
    have h := caseListPoints_eq_sum cases
    simp [stmtPoints, stmtCount, h]
    omega
  | selectStmt comms =>
    have h := commListPoints_eq_sum comms
    simp [stmtPoints, stmtCount, h]
termination_by sizeOf s

theorem stmtListPoints_eq_sum (l : List GoStmt) :
    stmtListPoints l = stmtListCount .dIf l + stmtListCount .dLoop l +
      stmtListCount .dSwitch l + stmtListCount .dCase l + stmtListCount .dComm l +
      stmtListCount .dLogic l := by
  cases l with
  | nil => simp [stmtListPoints, stmtListCount]
  | cons s rest =>
    have hs := stmtPoints_eq_sum s
    have hr := stmtListPoints_eq_sum rest
    simp [stmtListPoints, stmtListCount, hs, hr]
    omega
termination_by sizeOf l

theorem optStmtPoints_eq_sum (o : Option GoStmt) :
    optStmtPoints o = optStmtCount .dIf o + optStmtCount .dLoop o +
      optStmtCount .dSwitch o + optStmtCount .dCase o + optStmtCount .dComm o +
      optStmtCount .dLogic o := by
  cases o with
  | none => simp [optStmtPoints, optStmtCount]
  | some s =>
    have h := stmtPoints_eq_sum s
    simp [optStmtPoints, optStmtCount, h]
termination_by sizeOf o

theorem casePoints_eq_sum (c : GoCase) :
    casePoints c = caseCount .dIf c + caseCount .dLoop c + caseCount .dSwitch c +
      caseCount .dCase c + caseCount .dComm c + caseCount .dLogic c := by
  cases c with
  | mk vals body =>
    have h1 := exprListPoints_eq_sum vals
    have h2 := stmtListPoints_eq_sum body
    by_cases hv : vals.length > 0 <;>
      simp [casePoints, caseCount, h1, h2, hv] <;> omega
termination_by sizeOf c

theorem caseListPoints_eq_sum (l : List GoCase) :
    caseListPoints l = caseListCount .dIf l + caseListCount .dLoop l +
      caseListCount .dSwitch l + caseListCount .dCase l + caseListCount .dComm l +
      caseListCount .dLogic l := by
  cases l with
  | nil => simp [caseListPoints, caseListCount]
  | cons c rest =>
    have hc := casePoints_eq_sum c
    have hr := caseListPoints_eq_sum rest
    simp [caseListPoints, caseListCount, hc, hr]
    omega
termination_by sizeOf l

theorem commPoints_eq_sum (c : GoComm) :
    commPoints c = commCount .dIf c + commCount .dLoop c + commCount .dSwitch c +
      commCount .dCase c + commCount .dComm c + commCount .dLogic c := by
  cases c with
  | mk comm body =>
    have h1 := optStmtPoints_eq_sum comm
    have h2 := stmtListPoints_eq_sum body
    cases comm <;> simp [commPoints, commCount, h1, h2] <;> omega
termination_by sizeOf c

theorem commListPoints_eq_sum (l : List GoComm) :
    commListPoints l = commListCount .dIf l + commListCount .dLoop l +
      commListCount .dSwitch l + commListCount .dCase l + commListCount .dComm l +
      commListCount .dLogic l := by
  cases l with
  | nil => simp [commListPoints, commListCount]
  | cons c rest =>
    have hc := commPoints_eq_sum c
    have hr := commListPoints_eq_sum rest
    simp [commListPoints, commListCount, hc, hr]
    omega
termination_by sizeOf l

end

theorem stmtListPoints_append (l1 l2 : List GoStmt) :
    stmtListPoints (l1 ++ l2) = stmtListPoints l1 + stmtListPoints l2 := by
  induction l1 with
  | nil => simp [stmtListPoints]
  | cons s rest ih =>
    simp only [List.cons_append, stmtListPoints, ih]
    omega

mutual

theorem exprPoints_eq_logicCount (e : GoExpr) :
    exprPoints e = exprCount .dLogic e := by
  cases e with
  | ident s => simp [exprPoints, exprCount]
  | lit s => simp [exprPoints, exprCount]
  | selector e f => simpa [exprPoints, exprCount] using exprPoints_eq_logicCount e
  | paren e => simpa [exprPoints, exprCount] using exprPoints_eq_logicCount e
  | unary e => simpa [exprPoints, exprCount] using exprPoints_eq_logicCount e
  | binary op l r =>
    have hl := exprPoints_eq_logicCount l
    have hr := exprPoints_eq_logicCount r
    cases op <;> simp [exprPoints, exprCount, hl, hr]
  | call f args =>
    have hf := exprPoints_eq_logicCount f
    have ha := exprListPoints_eq_logicCount args
    simp [exprPoints, exprCount, hf, ha]
termination_by sizeOf e

theorem exprListPoints_eq_logicCount (l : List GoExpr) :
    exprListPoints l = exprListCount .dLogic l := by
  cases l with
  | nil => simp [exprListPoints, exprListCount]
  | cons e rest =>
    have he := exprPoints_eq_logicCount e
    have hr := exprListPoints_eq_logicCount rest
    simp [exprListPoints, exprListCount, he, hr]
termination_by sizeOf l

end

/-- Claim C5: a function's cyclomatic complexity is 1 plus one increment
for each `if`, each `for`/`range` loop, each `switch`/type-switch, each
`case` clause with at least one match value, each non-empty `select`
case, and each `&&`/`||` occurrence in the body; a bodyless function
scores complexity 1 and loc 0. -/
theorem complexity_characterization (fd : FuncDecl) :
    (calculateFunctionComplexity fd =
      1 + (match fd.body with
           | none => 0
           | some b => specDecisionPoints b.stmts)) ∧
    (fd.body = none →
      calculateFunctionComplexity fd = 1 ∧ CalculateFunctionLoC fd = 0) := by
  constructor
  · cases hb : fd.body with
    | none => simp [calculateFunctionComplexity, hb]
    | some b =>
      simp only [calculateFunctionComplexity, hb, specDecisionPoints]
      have := stmtListPoints_eq_sum b.stmts
      omega
  · intro hb
    exact ⟨by simp [calculateFunctionComplexity, hb],
           by simp [CalculateFunctionLoC, hb]⟩

/-- Witness for C5: a bodyless function has complexity 1 and loc 0. -/
theorem complexity_characterization_witness :
    calculateFunctionComplexity ⟨"f", none, none⟩ = 1 ∧
      CalculateFunctionLoC ⟨"f", none, none⟩ = 0 :=
  (complexity_characterization ⟨"f", none, none⟩).2 rfl

/-- Claim C9: inserting one `if` statement whose condition contains no
logical and/or operator (and whose branches add nothing) into a function
body raises the cyclomatic complexity by exactly 1, everything else held
fixed. -/
theorem complexity_add_if_increment (name : String) (recv : Option String)
    (pre post : List GoStmt) (cond : GoExpr) (l1 l2 : Int)
    (hcond : exprCount .dLogic cond = 0) :
    calculateFunctionComplexity
        ⟨name, recv, some ⟨pre ++ [.ifStmt none cond [] none] ++ post, l1, l2⟩⟩ =
      calculateFunctionComplexity ⟨name, recv, some ⟨pre ++ post, l1, l2⟩⟩ + 1 := by
  have hc : exprPoints cond = 0 := by rw [exprPoints_eq_logicCount]; exact hcond
  have hif : stmtPoints (.ifStmt none cond [] none) = 1 := by
    simp [stmtPoints, optStmtPoints, stmtListPoints, hc]
  simp only [calculateFunctionComplexity]
  rw [stmtListPoints_append, stmtListPoints_append, stmtListPoints_append]
  simp only [stmtListPoints, hif]
  omega

/-- Witness for C9: adding `if x { }` to an empty body takes the
complexity from 1 to 2. -/
theorem complexity_add_if_increment_witness :
    calculateFunctionComplexity
        ⟨"f", none, some ⟨[] ++ [.ifStmt none (.ident "x") [] none] ++ [], 0, 9⟩⟩ =
      calculateFunctionComplexity ⟨"f", none, some ⟨[] ++ [], 0, 9⟩⟩ + 1 :=
  complexity_add_if_increment "f" none [] [] (.ident "x") 0 9
    (by simp [exprCount])

/-! ### Claim C4: the minimum-cluster-size ratio is computed but unused -/

/-- Failing input for C4: fifteen private, non-utility methods whose
call graph has four connected components, of sizes 4, 4, 5 and 2. -/
def c4PrivateMethods : List (String × methodCallInfo) :=
  ["a1", "a2", "a3", "a4", "b1", "b2", "b3", "b4",
   "c1", "c2", "c3", "c4", "c5", "d1", "d2"].map
    (fun n => (n, { name := n, isPrivate := true, calls := [], isUtility := false }))

def c4CallGraph : List (String × List (String × Nat)) :=
  [("a1", [("a2", 1)]), ("a2", [("a3", 1)]), ("a3", [("a4", 1)]),
   ("b1", [("b2", 1)]), ("b2", [("b3", 1)]), ("b3", [("b4", 1)]),
   ("c1", [("c2", 1)]), ("c2", [("c3", 1)]), ("c3", [("c4", 1)]), ("c4", [("c5", 1)]),
   ("d1", [("d2", 1)])]

set_option maxRecDepth 8000 in
/-- Claim C4 (refuted by the code): with 15 private non-utility methods
the claimed minimum cluster size is `max(2, round(15 × 0.2)) = 3`, so the
size-2 component — one of four components, not a lone cluster — must be
dropped; but `findMethodClusters` computes `ratioBasedMin` without ever
assigning it to `minSize`, filters with the constant `MinClusterSize = 2`,
and reports the size-2 cluster. -/
theorem method_cluster_ratio_not_applied :
    (findMethodClusters c4CallGraph c4PrivateMethods).map (fun c => c.Size) =
      [5, 4, 4, 2] ∧
    round ((15 : Rat) * MinClusterRatio) = 3 ∧
    MinClusterSize < 3 := by
  refine ⟨by decide, ?_, by decide⟩
  norm_num [MinClusterRatio]

/-! ### Claim C1: the God Object rule -/

/-- The finding `detectGodObjects` constructs for a qualifying struct. -/
def godObjectFinding (pkg : PackageResult) (s : StructResult) : DiagnosticResult :=
  { type := "God Object"
    TargetName := pkg.Name ++ "." ++ s.StructName
    Severity := "Critical"
    Evidence := [("lcom4_score", .int s.LCOM4Score),
                 ("afferent", .int pkg.Afferent),
                 ("package", .str pkg.Name),
                 ("file_path", .str s.FilePath)]
    RelatedPath := "#struct-" ++ pkg.Path ++ "-" ++ s.StructName }

theorem god_inner_fold (pkg : PackageResult) (l : List StructResult)
    (init : List DiagnosticResult) :
    l.foldl
        (fun acc s =>
          if s.LCOM4Score ≥ 5 then
            acc ++ [{ type := "God Object"
                      TargetName := pkg.Name ++ "." ++ s.StructName
                      Severity := "Critical"
                      Evidence := [("lcom4_score", .int s.LCOM4Score),
                                   ("afferent", .int pkg.Afferent),
                                   ("package", .str pkg.Name),
                                   ("file_path", .str s.FilePath)]
                      RelatedPath := "#struct-" ++ pkg.Path ++ "-" ++ s.StructName }]
          else acc)
        init =
      init ++ (l.filter (fun s => 5 ≤ s.LCOM4Score)).map (godObjectFinding pkg) := by
  induction l generalizing init with
  | nil => simp
  | cons s rest ih =>
    by_cases h : 5 ≤ s.LCOM4Score
    · rw [List.foldl_cons, if_pos h, ih, List.filter_cons_of_pos (by simpa using h)]
      simp [godObjectFinding]
    · rw [List.foldl_cons, if_neg (by omega), ih,
        List.filter_cons_of_neg (by simpa using h)]

theorem detectGodObjects_eq (packages : List PackageResult) :
    detectGodObjects packages =
      (packages.filter (fun pkg => 10 ≤ pkg.Afferent)).flatMap
        (fun pkg =>
          (pkg.Structs.filter (fun s => 5 ≤ s.LCOM4Score)).map (godObjectFinding pkg)) := by
  have main : ∀ (l : List PackageResult) (init : List DiagnosticResult),
      l.foldl
          (fun results pkg =>
            if pkg.Afferent < 10 then results
            else
              results ++ pkg.Structs.foldl
                (fun acc s =>
                  if s.LCOM4Score ≥ 5 then
                    acc ++ [{ type := "God Object"
                              TargetName := pkg.Name ++ "." ++ s.StructName
                              Severity := "Critical"
                              Evidence := [("lcom4_score", .int s.LCOM4Score),
                                           ("afferent", .int pkg.Afferent),
                                           ("package", .str pkg.Name),
                                           ("file_path", .str s.FilePath)]
                              RelatedPath := "#struct-" ++ pkg.Path ++ "-" ++ s.StructName }]
                  else acc)
                [])
          init =
        init ++ (l.filter (fun pkg => 10 ≤ pkg.Afferent)).flatMap
          (fun pkg =>
            (pkg.Structs.filter (fun s => 5 ≤ s.LCOM4Score)).map (godObjectFinding pkg)) := by
    intro l
    induction l with
    | nil => simp
    | cons pkg rest ih =>
      intro init
      by_cases h : pkg.Afferent < 10
      · rw [List.foldl_cons, if_pos h, ih, List.filter_cons_of_neg (by simpa using (by omega : ¬ 10 ≤ pkg.Afferent))]
      · rw [List.foldl_cons, if_neg h, god_inner_fold, ih,
          List.filter_cons_of_pos (by simpa using (by omega : 10 ≤ pkg.Afferent))]
        simp
  simpa [detectGodObjects] using main packages []

theorem unstable_type (packages : List PackageResult) :
    ∀ d ∈ detectUnstableFoundations packages, d.type = "Unstable Foundation" := by
  intro d hd
  unfold detectUnstableFoundations at hd
  refine List.foldlRecOn (motive := fun l => ∀ x ∈ l, x.type = "Unstable Foundation")
    packages _ [] (by simp) ?_ d hd
  intro acc hacc pkg _ x hx
  by_cases h : pkg.Afferent ≥ 10 ∧ pkg.Instability ≥ 7/10
  · rw [if_pos h] at hx
    rcases List.mem_append.mp hx with h1 | h1
    · exact hacc x h1
    · simp only [List.mem_singleton] at h1
      subst h1
      rfl
  · rw [if_neg h] at hx
    exact hacc x hx

theorem complex_type (packages : List PackageResult) :
    ∀ d ∈ detectComplexFunctions packages, d.type = "Overly Complex Function" := by
  intro d hd
  unfold detectComplexFunctions at hd
  refine List.foldlRecOn (motive := fun l => ∀ x ∈ l, x.type = "Overly Complex Function")
    packages _ [] (by simp) ?_ d hd
  intro acc hacc pkg _ x hx
  rcases List.mem_append.mp hx with h1 | h1
  · exact hacc x h1
  · refine List.foldlRecOn (motive := fun l => ∀ x ∈ l, x.type = "Overly Complex Function")
      pkg.Functions _ [] (by simp) ?_ x h1
    intro acc2 hacc2 f _ y hy
    by_cases h : f.Complexity ≥ 15
    · rw [if_pos h] at hy
      rcases List.mem_append.mp hy with h2 | h2
      · exact hacc2 y h2
      · simp only [List.mem_singleton] at h2
        subst h2
        rfl
    · rw [if_neg h] at hy
      exact hacc2 y hy

theorem ambiguous_type (packages : List PackageResult) :
    ∀ d ∈ detectAmbiguousStructs packages, d.type = "Ambiguous Struct" := by
  intro d hd
  unfold detectAmbiguousStructs at hd
  refine List.foldlRecOn (motive := fun l => ∀ x ∈ l, x.type = "Ambiguous Struct")
    packages _ [] (by simp) ?_ d hd
  intro acc hacc pkg _ x hx
  rcases List.mem_append.mp hx with h1 | h1
  · exact hacc x h1
  · refine List.foldlRecOn (motive := fun l => ∀ x ∈ l, x.type = "Ambiguous Struct")
      pkg.Structs _ [] (by simp) ?_ x h1
    intro acc2 hacc2 s _ y hy
    dsimp only at hy
    split at hy
    · exact hacc2 y hy
    · split at hy
      · rcases List.mem_append.mp hy with h3 | h3
        · exact hacc2 y h3
        · simp only [List.mem_singleton] at h3
          subst h3
          rfl
      · exact hacc2 y hy

theorem islands_type (packages : List PackageResult) :
    ∀ d ∈ detectMethodIslands packages, d.type = "Split Responsibility (Method Islands)" := by
  intro d hd
  unfold detectMethodIslands at hd
  refine List.foldlRecOn
    (motive := fun l => ∀ x ∈ l, x.type = "Split Responsibility (Method Islands)")
    packages _ [] (by simp) ?_ d hd
  intro acc hacc pkg _ x hx
  rcases List.mem_append.mp hx with h1 | h1
  · exact hacc x h1
  · refine List.foldlRecOn
      (motive := fun l => ∀ x ∈ l, x.type = "Split Responsibility (Method Islands)")
      pkg.Structs _ [] (by simp) ?_ x h1
    intro acc2 hacc2 s _ y hy
    split at hy
    · exact hacc2 y hy
    · split at hy
      · rcases List.mem_append.mp hy with h2 | h2
        · exact hacc2 y h2
        · simp only [List.mem_singleton] at h2
          subst h2
          rfl
      · exact hacc2 y hy

theorem field_clusters_type (packages : List PackageResult) :
    ∀ d ∈ detectFieldClusters packages, d.type = "Split Responsibility (Field Clusters)" := by
  intro d hd
  unfold detectFieldClusters at hd
  refine List.foldlRecOn
    (motive := fun l => ∀ x ∈ l, x.type = "Split Responsibility (Field Clusters)")
    packages _ [] (by simp) ?_ d hd
  intro acc hacc pkg _ x hx
  rcases List.mem_append.mp hx with h1 | h1
  · exact hacc x h1
  · refine List.foldlRecOn
      (motive := fun l => ∀ x ∈ l, x.type = "Split Responsibility (Field Clusters)")
      pkg.Structs _ [] (by simp) ?_ x h1
    intro acc2 hacc2 s _ y hy
    split at hy
    · exact hacc2 y hy
    · split at hy
      · rcases List.mem_append.mp hy with h2 | h2
        · exact hacc2 y h2
        · simp only [List.mem_singleton] at h2
          subst h2
          rfl
      · exact hacc2 y hy

theorem god_object_mem_type (packages : List PackageResult) :
    ∀ d ∈ detectGodObjects packages, d.type = "God Object" := by
  intro d hd
  rw [detectGodObjects_eq] at hd
  rcases List.mem_flatMap.mp hd with ⟨pkg, _, hmem⟩
  rcases List.mem_map.mp hmem with ⟨s, _, heq⟩
  rw [← heq]
  rfl

/-- Claim C1: over a full diagnostics run, the "God Object" findings are
exactly the output of the God Object rule; that rule emits exactly one
Critical finding per struct with LCOM4 at least 5 inside a package with
afferent coupling at least 10 and nothing else, with the struct's exact
LCOM4 score and the package's exact afferent count in the evidence map;
in particular a struct with LCOM4 = 6 in a package with afferent = 12
yields one finding with evidence 6 and 12. -/
theorem god_object_rule (packages : List PackageResult) :
    ((PerformDiagnostics packages).filter (fun d => d.type = "God Object") =
      detectGodObjects packages) ∧
    (detectGodObjects packages =
      (packages.filter (fun pkg => 10 ≤ pkg.Afferent)).flatMap
        (fun pkg =>
          (pkg.Structs.filter (fun s => 5 ≤ s.LCOM4Score)).map (godObjectFinding pkg))) ∧
    (∀ pkg s,
      alget (godObjectFinding pkg s).Evidence "lcom4_score" (.str "") = .int s.LCOM4Score ∧
      alget (godObjectFinding pkg s).Evidence "afferent" (.str "") = .int pkg.Afferent ∧
      (godObjectFinding pkg s).Severity = "Critical" ∧
      (godObjectFinding pkg s).type = "God Object") ∧
    ((detectGodObjects
        [⟨"pkg", "pkg", 12, 0, 0, [⟨"S", "f.go", 6, [], none, none⟩], [], 0, 0, 0, 0, 0⟩]).map
          (fun d => (d.type, d.TargetName, d.Severity,
            alget d.Evidence "lcom4_score" (.str ""),
            alget d.Evidence "afferent" (.str ""))) =
      [("God Object", "pkg.S", "Critical", .int 6, .int 12)]) := by
  refine ⟨?_, detectGodObjects_eq packages, ?_, by decide⟩
  · unfold PerformDiagnostics
    rw [List.filter_append, List.filter_append, List.filter_append,
      List.filter_append, List.filter_append]
    rw [List.filter_eq_self.mpr
      (fun d hd => by simpa using god_object_mem_type packages d hd)]
    rw [List.filter_eq_nil_iff.mpr
      (fun d hd => by simp [unstable_type packages d hd])]
    rw [List.filter_eq_nil_iff.mpr
      (fun d hd => by simp [complex_type packages d hd])]
    rw [List.filter_eq_nil_iff.mpr
      (fun d hd => by simp [ambiguous_type packages d hd])]
    rw [List.filter_eq_nil_iff.mpr
      (fun d hd => by simp [islands_type packages d hd])]
    rw [List.filter_eq_nil_iff.mpr
      (fun d hd => by simp [field_clusters_type packages d hd])]
    simp
  · intro pkg s
    refine ⟨?_, ?_, rfl, rfl⟩ <;> simp [alget, godObjectFinding]

/-! ### Union-find verification

`RootedAt par n r` is the parent-chain relation of the embedded
union-find: following parent pointers from `n` reaches the self-parented
root `r`.  `WF` is the data-structure invariant (keys unduplicated,
parent pointers closed over the key set, ranks strictly increasing from
child to parent), which yields acyclicity and lets the fueled `find`
be proved equal to the chain root. -/

theorem alget_cons_self {β : Type} (k : String) (v : β) (l : List (String × β))
    (d : β) : alget ((k, v) :: l) k d = v := by
  simp [alget]

theorem alget_cons_ne {β : Type} (k0 k : String) (v0 : β) (l : List (String × β))
    (d : β) (h : ¬ k = k0) : alget ((k0, v0) :: l) k d = alget l k d := by
  simp only [alget]
  rw [List.find?_cons_of_neg _ (by simpa using Ne.symm h)]

theorem alkeys_cons {β : Type} (k : String) (v : β) (l : List (String × β)) :
    alkeys ((k, v) :: l) = k :: alkeys l := rfl

theorem alset_cons_self {β : Type} (k : String) (v0 v : β) (l : List (String × β)) :
    alset ((k, v0) :: l) k v = (k, v) :: l := by
  simp [alset]

theorem alset_cons_ne {β : Type} (k0 k : String) (v0 v : β) (l : List (String × β))
    (h : ¬ k0 = k) : alset ((k0, v0) :: l) k v = (k0, v0) :: alset l k v := by
  simp [alset, h]

theorem alget_alset {β : Type} (l : List (String × β)) (k k' : String)
    (v : β) (d : β) :
    alget (alset l k v) k' d = if k' = k then v else alget l k' d := by
  induction l with
  | nil =>
    by_cases h : k' = k
    · simp [alset, h, alget_cons_self]
    · simp only [alset]
      rw [alget_cons_ne _ _ _ _ _ h, if_neg h]
  | cons hd tl ih =>
    obtain ⟨k0, v0⟩ := hd
    by_cases h0 : k0 = k
    · subst h0
      rw [alset_cons_self]
      by_cases h : k' = k0
      · subst h
        rw [alget_cons_self, alget_cons_self, if_pos rfl]
      · rw [alget_cons_ne _ _ _ _ _ h, alget_cons_ne _ _ _ _ _ h, if_neg h]
    · rw [alset_cons_ne _ _ _ _ _ h0]
      by_cases h : k' = k0
      · subst h
        rw [alget_cons_self, alget_cons_self]
        rw [if_neg h0]
      · rw [alget_cons_ne _ _ _ _ _ h, alget_cons_ne _ _ _ _ _ h, ih]

theorem mem_of_alkeys {β : Type} (l : List (String × β)) (k : String) (d : β)
    (hk : k ∈ alkeys l) : (k, alget l k d) ∈ l := by
  induction l with
  | nil => simp [alkeys] at hk
  | cons hd tl ih =>
    obtain ⟨k0, v0⟩ := hd
    by_cases h : k = k0
    · subst h
      rw [alget_cons_self]
      exact List.mem_cons_self _ _
    · rw [alkeys_cons, List.mem_cons] at hk
      rcases hk with h1 | h1
      · exact absurd h1 h
      · rw [alget_cons_ne _ _ _ _ _ h]
        exact List.mem_cons_of_mem _ (ih h1)

theorem alkeys_alset_mem {β : Type} (l : List (String × β)) (k : String) (v : β)
    (hk : k ∈ alkeys l) : alkeys (alset l k v) = alkeys l := by
  induction l with
  | nil => simp [alkeys] at hk
  | cons hd tl ih =>
    obtain ⟨k0, v0⟩ := hd
    by_cases h : k0 = k
    · subst h
      rw [alset_cons_self, alkeys_cons, alkeys_cons]
    · rw [alkeys_cons, List.mem_cons] at hk
      rcases hk with h1 | h1
      · exact absurd h1.symm h
      · rw [alset_cons_ne _ _ _ _ _ h, alkeys_cons, alkeys_cons, ih h1]

theorem alkeys_alset_not_mem {β : Type} (l : List (String × β)) (k : String)
    (v : β) (hk : k ∉ alkeys l) : alkeys (alset l k v) = alkeys l ++ [k] := by
  induction l with
  | nil => simp [alset, alkeys]
  | cons hd tl ih =>
    obtain ⟨k0, v0⟩ := hd
    rw [alkeys_cons, List.mem_cons] at hk
    push_neg at hk
    rw [alset_cons_ne _ _ _ _ _ (Ne.symm hk.1), alkeys_cons, alkeys_cons,
      ih hk.2, List.cons_append]

theorem mem_alset_iff {β : Type} (l : List (String × β)) (k : String) (v : β)
    (hnodup : (alkeys l).Nodup) (x : String × β) :
    x ∈ alset l k v ↔ x = (k, v) ∨ (x ∈ l ∧ x.1 ≠ k) := by
  induction l with
  | nil =>
    simp only [alset, List.mem_singleton, List.not_mem_nil, false_and, or_false]
  | cons hd tl ih =>
    obtain ⟨k0, v0⟩ := hd
    rw [alkeys_cons, List.nodup_cons] at hnodup
    by_cases h : k0 = k
    · subst h
      rw [alset_cons_self]
      constructor
      · intro h1
        rcases List.mem_cons.mp h1 with h2 | h2
        · exact Or.inl h2
        · refine Or.inr ⟨List.mem_cons_of_mem _ h2, ?_⟩
          intro habs
          exact hnodup.1 (habs ▸ List.mem_map.mpr ⟨x, h2, rfl⟩)
      · rintro (h1 | ⟨h1, h2⟩)
        · subst h1
          exact List.mem_cons_self _ _
        · rcases List.mem_cons.mp h1 with h3 | h3
          · exact absurd (congrArg Prod.fst h3) h2
          · exact List.mem_cons_of_mem _ h3
    · rw [alset_cons_ne _ _ _ _ _ h]
      constructor
      · intro h1
        rcases List.mem_cons.mp h1 with h2 | h2
        · subst h2
          exact Or.inr ⟨List.mem_cons_self _ _, by simpa using h⟩
        · rcases (ih hnodup.2).mp h2 with h3 | ⟨h3, h4⟩
          · exact Or.inl h3
          · exact Or.inr ⟨List.mem_cons_of_mem _ h3, h4⟩
      · rintro (h1 | ⟨h1, h2⟩)
        · subst h1
          exact List.mem_cons_of_mem _ ((ih hnodup.2).mpr (Or.inl rfl))
        · rcases List.mem_cons.mp h1 with h3 | h3
          · subst h3
            exact List.mem_cons_self _ _
          · exact List.mem_cons_of_mem _ ((ih hnodup.2).mpr (Or.inr ⟨h3, h2⟩))

theorem countP_strict {α : Type} (l : List α) (A B : α → Bool)
    (hAB : ∀ x ∈ l, A x = true → B x = true) (x0 : α) (hx0 : x0 ∈ l)
    (hB : B x0 = true) (hA : A x0 = false) :
    l.countP A < l.countP B := by
  induction l with
  | nil => simp at hx0
  | cons hd tl ih =>
    have hle : tl.countP A ≤ tl.countP B :=
      List.countP_mono_left (fun x hx => hAB x (List.mem_cons_of_mem _ hx))
    rcases List.mem_cons.mp hx0 with h | h
    · subst h
      rw [List.countP_cons, List.countP_cons, hB, hA]
      simp
      omega
    · have step : tl.countP A < tl.countP B :=
        ih (fun x hx hA2 => hAB x (List.mem_cons_of_mem _ hx) hA2) h
      rw [List.countP_cons, List.countP_cons]
      by_cases hAhd : A hd = true
      · rw [hAhd, hAB hd (List.mem_cons_self _ _) hAhd]
        omega
      · simp only [Bool.not_eq_true] at hAhd
        rw [hAhd]
        by_cases hBhd : B hd = true
        · rw [hBhd]
          simp
          omega
        · simp only [Bool.not_eq_true] at hBhd
          rw [hBhd]
          simp
          omega

/-- Parent-chain relation: following parent pointers from `n` reaches
the self-parented root `r`. -/
inductive RootedAt (par : List (String × String)) : String → String → Prop
  | root (n : String) (h : alget par n "" = n) : RootedAt par n n
  | step (n r : String) (hne : alget par n "" ≠ n)
      (hrest : RootedAt par (alget par n "") r) : RootedAt par n r

theorem rootedAt_fixpoint {par : List (String × String)} {n r : String}
    (h : RootedAt par n r) : alget par r "" = r := by
  induction h with
  | root n h => exact h
  | step n r hne hrest ih => exact ih

theorem rootedAt_unique {par : List (String × String)} {n r r' : String}
    (h : RootedAt par n r) (h' : RootedAt par n r') : r = r' := by
  induction h with
  | root n h =>
    cases h' with
    | root => rfl
    | step _ _ hne _ => exact absurd h hne
  | step n r hne hrest ih =>
    cases h' with
    | root _ hfix => exact absurd hfix hne
    | step _ _ _ hrest2 => exact ih hrest2

/-- Union-find well-formedness: unduplicated keys, parent pointers
closed over the key set, and ranks strictly increasing from child to
parent (which forbids cycles). -/
structure WF (uf : unionFind) : Prop where
  nodup : (alkeys uf.parent).Nodup
  closed : ∀ p ∈ uf.parent, p.2 ∈ alkeys uf.parent
  rankInv : ∀ p ∈ uf.parent, p.2 ≠ p.1 →
    alget uf.rank p.1 0 < alget uf.rank p.2 0

theorem parent_mem_keys (uf : unionFind) (hwf : WF uf) (n : String)
    (hn : n ∈ alkeys uf.parent) : alget uf.parent n "" ∈ alkeys uf.parent :=
  hwf.closed _ (mem_of_alkeys _ _ _ hn)

theorem rank_lt_parent (uf : unionFind) (hwf : WF uf) (n : String)
    (hn : n ∈ alkeys uf.parent) (hne : alget uf.parent n "" ≠ n) :
    alget uf.rank n 0 < alget uf.rank (alget uf.parent n "") 0 :=
  hwf.rankInv _ (mem_of_alkeys _ _ _ hn) hne

def rankMeasure (uf : unionFind) (n : String) : Nat :=
  uf.parent.countP (fun p => decide (alget uf.rank n 0 < alget uf.rank p.1 0))

theorem rankMeasure_parent_lt (uf : unionFind) (hwf : WF uf) (n : String)
    (hn : n ∈ alkeys uf.parent) (hne : alget uf.parent n "" ≠ n) :
    rankMeasure uf (alget uf.parent n "") < rankMeasure uf n := by
  have hlt := rank_lt_parent uf hwf n hn hne
  have hpmem := parent_mem_keys uf hwf n hn
  refine countP_strict _ _ _ ?_ (alget uf.parent n "", alget uf.parent (alget uf.parent n "") "") ?_ ?_ ?_
  · intro x _ hx
    simp only [decide_eq_true_eq] at hx ⊢
    omega
  · exact mem_of_alkeys _ _ _ hpmem
  · simpa using hlt
  · simp

theorem rootedAt_exists (uf : unionFind) (hwf : WF uf) :
    ∀ n, n ∈ alkeys uf.parent → ∃ r, RootedAt uf.parent n r := by
  intro n hn
  generalize hm : rankMeasure uf n = m
  induction m using Nat.strong_induction_on generalizing n with
  | _ m ih =>
    by_cases h : alget uf.parent n "" = n
    · exact ⟨n, RootedAt.root n h⟩
    · have hpm := parent_mem_keys uf hwf n hn
      have hlt : rankMeasure uf (alget uf.parent n "") < m :=
        hm ▸ rankMeasure_parent_lt uf hwf n hn h
      obtain ⟨r, hr⟩ := ih _ hlt _ hpm rfl
      exact ⟨r, RootedAt.step n r h hr⟩

theorem rootedAt_rank_le (uf : unionFind) (hwf : WF uf) {n r : String}
    (h : RootedAt uf.parent n r) :
    n ∈ alkeys uf.parent → alget uf.rank n 0 ≤ alget uf.rank r 0 := by
  induction h with
  | root n h => exact fun _ => le_refl _
  | step n r hne hrest ih =>
    intro hn
    have h1 := rank_lt_parent uf hwf n hn hne
    have h2 := ih (parent_mem_keys uf hwf n hn)
    omega

theorem rootedAt_mem (uf : unionFind) (hwf : WF uf) {n r : String}
    (h : RootedAt uf.parent n r) : n ∈ alkeys uf.parent → r ∈ alkeys uf.parent := by
  induction h with
  | root n h => exact id
  | step n r hne hrest ih => exact fun hn => ih (parent_mem_keys uf hwf n hn)

theorem rootedAt_root_ne (uf : unionFind) (hwf : WF uf) {n r : String}
    (hn : n ∈ alkeys uf.parent) (h : RootedAt uf.parent n r)
    (hne : alget uf.parent n "" ≠ n) : r ≠ n := by
  cases h with
  | root => exact absurd ‹alget uf.parent n "" = n› hne
  | step _ _ _ hrest =>
    have h1 := rank_lt_parent uf hwf n hn hne
    have h2 := rootedAt_rank_le uf hwf hrest (parent_mem_keys uf hwf n hn)
    intro habs
    subst habs
    omega

/-- Path compression to the root does not change the root of any node. -/
theorem rooted_compress (par : List (String × String)) (n r : String)
    (hnr : RootedAt par n r) (hrn : r ≠ n) (m s : String) :
    RootedAt (alset par n r) m s ↔ RootedAt par m s := by
  have hget : ∀ x, alget (alset par n r) x "" = if x = n then r else alget par x "" :=
    fun x => alget_alset par n x r ""
  constructor
  · intro h
    induction h with
    | root m h =>
      rw [hget] at h
      by_cases hm : m = n
      · rw [if_pos hm] at h
        exact absurd (h ▸ hm) hrn
      · rw [if_neg hm] at h
        exact RootedAt.root m h
    | step m s hne hrest ih =>
      rw [hget] at hne hrest ih
      by_cases hm : m = n
      · rw [if_pos hm] at hrest ih
        have hs : s = r := by
          have : RootedAt par r r := RootedAt.root r (rootedAt_fixpoint hnr)
          exact (rootedAt_unique this ih).symm
        subst hs
        exact hm ▸ hnr
      · rw [if_neg hm] at hne ih
        exact RootedAt.step m s hne ih
  · intro h
    induction h with
    | root m h =>
      by_cases hm : m = n
      · subst hm
        exact absurd (rootedAt_unique hnr (RootedAt.root m h)) hrn
      · exact RootedAt.root m (by rw [hget, if_neg hm]; exact h)
    | step m s hne hrest ih =>
      by_cases hm : m = n
      · subst hm
        have hs : s = r := rootedAt_unique (RootedAt.step m s hne hrest) hnr
        subst hs
        refine RootedAt.step m s ?_ ?_
        · rw [hget, if_pos rfl]
          exact hrn
        · rw [hget, if_pos rfl]
          refine RootedAt.root s ?_
          rw [hget, if_neg hrn, rootedAt_fixpoint hnr]
      · refine RootedAt.step m s ?_ ?_
        · rw [hget, if_neg hm]
          exact hne
        · rw [hget, if_neg hm]
          exact ih

/-- The fueled `find` returns the chain root, keeps the key set and the
rank map, preserves every node's root, and preserves well-formedness. -/
theorem findAux_spec (uf : unionFind) (hwf : WF uf) :
    ∀ (fuel : Nat) (n : String), n ∈ alkeys uf.parent →
    ∀ r, RootedAt uf.parent n r → rankMeasure uf n < fuel →
    ∃ uf' : unionFind, unionFind.findAux fuel uf n = (r, uf') ∧
      WF uf' ∧ alkeys uf'.parent = alkeys uf.parent ∧ uf'.rank = uf.rank ∧
      (∀ m s, RootedAt uf'.parent m s ↔ RootedAt uf.parent m s) := by
  intro fuel
  induction fuel with
  | zero => intro n _ r _ hfuel; omega
  | succ fuel ih =>
    intro n hn r hr hfuel
    by_cases hp : alget uf.parent n "" = n
    · have hrn : r = n := rootedAt_unique hr (RootedAt.root n hp)
      subst hrn
      refine ⟨uf, ?_, hwf, rfl, rfl, fun _ _ => Iff.rfl⟩
      simp [unionFind.findAux, hp]
    · have hpm := parent_mem_keys uf hwf n hn
      have hpr : RootedAt uf.parent (alget uf.parent n "") r := by
        cases hr with
        | root => exact absurd ‹alget uf.parent n "" = n› hp
        | step _ _ _ hrest => exact hrest
      have hmeas := rankMeasure_parent_lt uf hwf n hn hp
      obtain ⟨uf1, heq, hwf1, hkeys1, hrank1, hiff1⟩ :=
        ih (alget uf.parent n "") hpm r hpr (by omega)
      have hrn : r ≠ n := rootedAt_root_ne uf hwf hn hr hp
      have hnr1 : RootedAt uf1.parent n r := (hiff1 n r).mpr hr
      have hcomp := rooted_compress uf1.parent n r hnr1 hrn
      refine ⟨{ uf1 with parent := alset uf1.parent n r }, ?_, ?_, ?_, hrank1, ?_⟩
      · simp only [unionFind.findAux, if_neg hp]
        rw [heq]
      · refine ⟨?_, ?_, ?_⟩
        · simp only
          rw [alkeys_alset_mem uf1.parent n r (hkeys1 ▸ hn)]
          exact hwf1.nodup
        · intro p hp2
          simp only at hp2 ⊢
          rw [alkeys_alset_mem uf1.parent n r (hkeys1 ▸ hn)]
          rcases (mem_alset_iff uf1.parent n r hwf1.nodup p).mp hp2 with h1 | ⟨h1, _⟩
          · subst h1
            exact hkeys1 ▸ rootedAt_mem uf hwf hr hn
          · exact hwf1.closed p h1
        · intro p hp2 hne2
          simp only at hp2 ⊢
          rcases (mem_alset_iff uf1.parent n r hwf1.nodup p).mp hp2 with h1 | ⟨h1, _⟩
          · subst h1
            simp only
            rw [hrank1]
            have h1 := rank_lt_parent uf hwf n hn hp
            have h2 := rootedAt_rank_le uf hwf hpr hpm
            omega
          · exact hwf1.rankInv p h1 hne2
      · simp only
        rw [alkeys_alset_mem uf1.parent n r (hkeys1 ▸ hn)]
        exact hkeys1
      · intro m s
        exact (hcomp m s).trans (hiff1 m s)

theorem find_spec (uf : unionFind) (hwf : WF uf) (n : String)
    (hn : n ∈ alkeys uf.parent) :
    ∃ r uf', uf.find n = (r, uf') ∧ RootedAt uf.parent n r ∧
      WF uf' ∧ alkeys uf'.parent = alkeys uf.parent ∧ uf'.rank = uf.rank ∧
      (∀ m s, RootedAt uf'.parent m s ↔ RootedAt uf.parent m s) := by
  obtain ⟨r, hr⟩ := rootedAt_exists uf hwf n hn
  have hbound : rankMeasure uf n < uf.parent.length + 1 := by
    have := List.countP_le_length
      (p := fun p => decide (alget uf.rank n 0 < alget uf.rank p.1 0))
      (l := uf.parent)
    unfold rankMeasure
    omega
  obtain ⟨uf', heq, h1, h2, h3, h4⟩ :=
    findAux_spec uf hwf (uf.parent.length + 1) n hn r hr hbound
  exact ⟨r, uf', heq, hr, h1, h2, h3, h4⟩

/-- Both nodes lie in the same component: they share a root. -/
def sameRoot (par : List (String × String)) (x y : String) : Prop :=
  ∃ r, RootedAt par x r ∧ RootedAt par y r

theorem sameRoot_root_iff {par : List (String × String)} {a ra : String}
    (ha : RootedAt par a ra) (x : String) :
    sameRoot par x a ↔ RootedAt par x ra := by
  constructor
  · rintro ⟨r, hx, har⟩
    rwa [rootedAt_unique har ha] at hx
  · intro hx
    exact ⟨ra, hx, ha⟩

theorem entry_eq_alget {β : Type} (l : List (String × β)) (k : String)
    (v d : β) :
    (alkeys l).Nodup → (k, v) ∈ l → v = alget l k d := by
  induction l with
  | nil => intro _ h; simp at h
  | cons hd tl ih =>
    intro hnodup h
    obtain ⟨k0, v0⟩ := hd
    rw [alkeys_cons, List.nodup_cons] at hnodup
    rcases List.mem_cons.mp h with h1 | h1
    · have hk : k = k0 := congrArg Prod.fst h1
      have hv : v = v0 := congrArg Prod.snd h1
      subst hk
      rw [alget_cons_self, hv]
    · have hk : k ∈ alkeys tl := List.mem_map.mpr ⟨(k, v), h1, rfl⟩
      have hkk0 : ¬ k = k0 := fun habs => hnodup.1 (habs ▸ hk)
      rw [alget_cons_ne _ _ _ _ _ hkk0]
      exact ih hnodup.2 h1

/-- Linking root `rx` beneath root `ry` rewires the chains: every node
formerly rooted at `rx` is now rooted at `ry`, all other roots are
unchanged. -/
theorem rooted_link_to (par : List (String × String)) (rx ry : String)
    (hrx : alget par rx "" = rx) (hry : alget par ry "" = ry)
    (hne : rx ≠ ry) :
    ∀ m s, RootedAt (alset par rx ry) m s ↔
      ((RootedAt par m s ∧ s ≠ rx) ∨ (RootedAt par m rx ∧ s = ry)) := by
  have hget : ∀ x, alget (alset par rx ry) x "" = if x = rx then ry else alget par x "" :=
    fun x => alget_alset par rx x ry ""
  have aux1 : ∀ m s, RootedAt par m s → s ≠ rx → RootedAt (alset par rx ry) m s := by
    intro m s h1
    induction h1 with
    | root m h =>
      intro h2
      exact RootedAt.root m (by rw [hget, if_neg h2]; exact h)
    | step m s hne2 hrest ih =>
      intro h2
      have hm : m ≠ rx := by
        intro habs
        subst habs
        rw [hrx] at hne2
        exact hne2 rfl
      refine RootedAt.step m s ?_ ?_
      · rw [hget, if_neg hm]; exact hne2
      · rw [hget, if_neg hm]; exact ih h2
  have aux2 : ∀ m s, RootedAt par m s → s = rx → RootedAt (alset par rx ry) m ry := by
    intro m s h1
    induction h1 with
    | root m h =>
      intro hs
      subst hs
      refine RootedAt.step m ry ?_ ?_
      · rw [hget, if_pos rfl]; exact Ne.symm hne
      · rw [hget, if_pos rfl]
        exact RootedAt.root ry (by rw [hget, if_neg (Ne.symm hne)]; exact hry)
    | step m s hne2 hrest ih =>
      intro hs
      have hm : m ≠ rx := by
        intro habs
        subst habs
        rw [hrx] at hne2
        exact hne2 rfl
      refine RootedAt.step m ry ?_ ?_
      · rw [hget, if_neg hm]; exact hne2
      · rw [hget, if_neg hm]; exact ih hs
  intro m s
  constructor
  · intro h
    induction h with
    | root m h =>
      rw [hget] at h
      by_cases hm : m = rx
      · rw [if_pos hm] at h
        exact absurd (h.trans hm).symm hne
      · rw [if_neg hm] at h
        exact Or.inl ⟨RootedAt.root m h, hm⟩
    | step m s hne2 hrest ih =>
      by_cases hm : m = rx
      · subst hm
        rw [hget, if_pos rfl] at ih
        rcases ih with ⟨h1, h2⟩ | ⟨h1, h2⟩
        · have hs : s = ry := rootedAt_unique h1 (RootedAt.root ry hry)
          exact Or.inr ⟨RootedAt.root m hrx, hs⟩
        · exact absurd (rootedAt_unique (RootedAt.root ry hry) h1).symm hne
      · rw [hget, if_neg hm] at ih
        rcases ih with ⟨h1, h2⟩ | ⟨h1, h2⟩
        · refine Or.inl ⟨RootedAt.step m s ?_ h1, h2⟩
          rw [hget, if_neg hm] at hne2
          exact hne2
        · refine Or.inr ⟨RootedAt.step m rx ?_ h1, h2⟩
          rw [hget, if_neg hm] at hne2
          exact hne2
  · rintro (⟨h1, h2⟩ | ⟨h1, h2⟩)
    · exact aux1 m s h1 h2
    · subst h2
      exact aux2 m rx h1 rfl

theorem sameRoot_congr {par1 par2 : List (String × String)}
    (h : ∀ m s, RootedAt par1 m s ↔ RootedAt par2 m s) (x y : String) :
    sameRoot par1 x y ↔ sameRoot par2 x y := by
  constructor
  · rintro ⟨r, h1, h2⟩
    exact ⟨r, (h x r).mp h1, (h y r).mp h2⟩
  · rintro ⟨r, h1, h2⟩
    exact ⟨r, (h x r).mpr h1, (h y r).mpr h2⟩

theorem sameRoot_link (par : List (String × String)) (rx ry : String)
    (hrx : alget par rx "" = rx) (hry : alget par ry "" = ry) (hne : rx ≠ ry)
    (x y : String) :
    sameRoot (alset par rx ry) x y ↔
      (sameRoot par x y ∨ (RootedAt par x rx ∧ RootedAt par y ry) ∨
       (RootedAt par x ry ∧ RootedAt par y rx)) := by
  have hchar := rooted_link_to par rx ry hrx hry hne
  constructor
  · rintro ⟨s, h1, h2⟩
    rcases (hchar x s).mp h1 with ⟨hx1, hx2⟩ | ⟨hx1, hx2⟩ <;>
      rcases (hchar y s).mp h2 with ⟨hy1, hy2⟩ | ⟨hy1, hy2⟩
    · exact Or.inl ⟨s, hx1, hy1⟩
    · subst hy2
      exact Or.inr (Or.inr ⟨hx1, hy1⟩)
    · subst hx2
      exact Or.inr (Or.inl ⟨hx1, hy1⟩)
    · exact Or.inl ⟨rx, hx1, hy1⟩
  · rintro (⟨r, hxr, hyr⟩ | ⟨hx1, hy1⟩ | ⟨hx1, hy1⟩)
    · by_cases hr : r = rx
      · subst hr
        exact ⟨ry, (hchar x ry).mpr (Or.inr ⟨hxr, rfl⟩),
               (hchar y ry).mpr (Or.inr ⟨hyr, rfl⟩)⟩
      · exact ⟨r, (hchar x r).mpr (Or.inl ⟨hxr, hr⟩),
               (hchar y r).mpr (Or.inl ⟨hyr, hr⟩)⟩
    · exact ⟨ry, (hchar x ry).mpr (Or.inr ⟨hx1, rfl⟩),
             (hchar y ry).mpr (Or.inl ⟨hy1, Ne.symm hne⟩)⟩
    · exact ⟨ry, (hchar x ry).mpr (Or.inl ⟨hx1, Ne.symm hne⟩),
             (hchar y ry).mpr (Or.inr ⟨hy1, rfl⟩)⟩

theorem link_WF (uf2 : unionFind) (hwf2 : WF uf2) (rx ry : String)
    (hrxm : rx ∈ alkeys uf2.parent) (hrym : ry ∈ alkeys uf2.parent)
    (hry : alget uf2.parent ry "" = ry) (_hne : rx ≠ ry)
    (newRank : List (String × Nat))
    (hrank_lt : alget newRank rx 0 < alget newRank ry 0)
    (hrank_pres : ∀ m, m ≠ ry → alget newRank m 0 = alget uf2.rank m 0)
    (hrank_ge : alget uf2.rank ry 0 ≤ alget newRank ry 0) :
    WF { parent := alset uf2.parent rx ry, rank := newRank } := by
  refine ⟨?_, ?_, ?_⟩
  · simp only
    rw [alkeys_alset_mem uf2.parent rx ry hrxm]
    exact hwf2.nodup
  · intro p hp
    simp only at hp ⊢
    rw [alkeys_alset_mem uf2.parent rx ry hrxm]
    rcases (mem_alset_iff uf2.parent rx ry hwf2.nodup p).mp hp with h1 | ⟨h1, _⟩
    · subst h1
      exact hrym
    · exact hwf2.closed p h1
  · intro p hp hne2
    simp only at hp ⊢
    rcases (mem_alset_iff uf2.parent rx ry hwf2.nodup p).mp hp with h1 | ⟨h1, h2⟩
    · subst h1
      exact hrank_lt
    · have hold := hwf2.rankInv p h1 hne2
      have hp1ry : p.1 ≠ ry := by
        intro habs
        have := entry_eq_alget uf2.parent p.1 p.2 "" hwf2.nodup (by
          obtain ⟨p1, p2⟩ := p
          exact h1)
        rw [habs, hry] at this
        exact hne2 (this.symm ▸ habs.symm)
      by_cases hp2ry : p.2 = ry
      · rw [hrank_pres p.1 hp1ry, hp2ry]
        calc alget uf2.rank p.1 0 < alget uf2.rank p.2 0 := hold
          _ ≤ alget newRank ry 0 := hp2ry ▸ hrank_ge
      · rw [hrank_pres p.1 hp1ry, hrank_pres p.2 hp2ry]
        exact hold

theorem hasKey_iff {β : Type} (l : List (String × β)) (k : String) :
    hasKey l k = true ↔ k ∈ alkeys l := by
  unfold hasKey
  rw [List.find?_isSome]
  constructor
  · rintro ⟨x, hx, hpx⟩
    simp only [decide_eq_true_eq] at hpx
    exact hpx ▸ List.mem_map.mpr ⟨x, hx, rfl⟩
  · intro hk
    obtain ⟨p, hp, hfst⟩ := List.mem_map.mp hk
    exact ⟨p, hp, by simp [hfst]⟩

theorem rootedAt_extend_new (uf : unionFind) (hwf : WF uf) (n : String)
    (hn : n ∉ alkeys uf.parent) (m s : String) (hm : m ∈ alkeys uf.parent) :
    RootedAt (alset uf.parent n n) m s ↔ RootedAt uf.parent m s := by
  have hget : ∀ x, alget (alset uf.parent n n) x "" =
      if x = n then n else alget uf.parent x "" :=
    fun x => alget_alset uf.parent n x n ""
  have aux1 : ∀ m s, RootedAt (alset uf.parent n n) m s →
      m ∈ alkeys uf.parent → RootedAt uf.parent m s := by
    intro m s h
    induction h with
    | root m h =>
      intro hm
      have hmn : m ≠ n := fun habs => hn (habs ▸ hm)
      rw [hget, if_neg hmn] at h
      exact RootedAt.root m h
    | step m s hne hrest ih =>
      intro hm
      have hmn : m ≠ n := fun habs => hn (habs ▸ hm)
      rw [hget, if_neg hmn] at hne ih
      exact RootedAt.step m s hne (ih (parent_mem_keys uf hwf m hm))
  have aux2 : ∀ m s, RootedAt uf.parent m s →
      m ∈ alkeys uf.parent → RootedAt (alset uf.parent n n) m s := by
    intro m s h
    induction h with
    | root m h =>
      intro hm
      have hmn : m ≠ n := fun habs => hn (habs ▸ hm)
      exact RootedAt.root m (by rw [hget, if_neg hmn]; exact h)
    | step m s hne hrest ih =>
      intro hm
      have hmn : m ≠ n := fun habs => hn (habs ▸ hm)
      refine RootedAt.step m s ?_ ?_
      · rw [hget, if_neg hmn]; exact hne
      · rw [hget, if_neg hmn]
        exact ih (parent_mem_keys uf hwf m hm)
  exact ⟨fun h => aux1 m s h hm, fun h => aux2 m s h hm⟩

theorem add_spec (uf : unionFind) (hwf : WF uf) (n : String) :
    WF (uf.add n) ∧
    (n ∈ alkeys uf.parent → uf.add n = uf) ∧
    (n ∉ alkeys uf.parent →
      alkeys (uf.add n).parent = alkeys uf.parent ++ [n] ∧
      (∀ m s, m ∈ alkeys uf.parent →
        (RootedAt (uf.add n).parent m s ↔ RootedAt uf.parent m s)) ∧
      RootedAt (uf.add n).parent n n) := by
  by_cases hn : n ∈ alkeys uf.parent
  · have heq : uf.add n = uf := by
      unfold unionFind.add
      rw [if_pos ((hasKey_iff uf.parent n).mpr hn)]
    refine ⟨by rw [heq]; exact hwf, fun _ => heq, fun habs => absurd hn habs⟩
  · have heq : uf.add n =
        { parent := alset uf.parent n n, rank := alset uf.rank n 0 } := by
      unfold unionFind.add
      rw [if_neg]
      intro habs
      exact hn ((hasKey_iff uf.parent n).mp habs)
    have hkeys : alkeys (alset uf.parent n n) = alkeys uf.parent ++ [n] :=
      alkeys_alset_not_mem uf.parent n n hn
    have hnodup : (alkeys (alset uf.parent n n)).Nodup := by
      rw [hkeys, List.nodup_append]
      exact ⟨hwf.nodup, List.nodup_singleton n,
        fun a ha hb => by simp only [List.mem_singleton] at hb; exact hn (hb ▸ ha)⟩
    refine ⟨?_, fun habs => absurd habs hn, fun _ => ?_⟩
    · rw [heq]
      refine ⟨hnodup, ?_, ?_⟩
      · intro p hp
        simp only at hp ⊢
        rcases (mem_alset_iff uf.parent n n hwf.nodup p).mp hp with h1 | ⟨h1, _⟩
        · subst h1
          rw [hkeys]
          simp
        · rw [hkeys]
          exact List.mem_append_left _ (hwf.closed p h1)
      · intro p hp hne2
        simp only at hp ⊢
        rcases (mem_alset_iff uf.parent n n hwf.nodup p).mp hp with h1 | ⟨h1, _⟩
        · subst h1
          exact absurd rfl hne2
        · have hp1 : p.1 ≠ n := by
            intro habs
            refine hn (habs ▸ ?_)
            exact List.mem_map.mpr ⟨p, h1, rfl⟩
          have hp2 : p.2 ≠ n := by
            intro habs
            exact hn (habs ▸ hwf.closed p h1)
          rw [alget_alset, alget_alset, if_neg hp1, if_neg hp2]
          exact hwf.rankInv p h1 hne2
    · refine ⟨by rw [heq]; exact hkeys, ?_, ?_⟩
      · intro m s hm
        rw [heq]
        exact rootedAt_extend_new uf hwf n hn m s hm
      · rw [heq]
        exact RootedAt.root n (by rw [alget_alset, if_pos rfl])

/-- Effect of `union a b`: well-formedness and the key set are
preserved, and the components of `a` and `b` are merged, all other
components untouched. -/
theorem union_spec (uf : unionFind) (hwf : WF uf) (a b : String)
    (ha : a ∈ alkeys uf.parent) (hb : b ∈ alkeys uf.parent) :
    WF (uf.union a b) ∧
    alkeys (uf.union a b).parent = alkeys uf.parent ∧
    (∀ x y, sameRoot (uf.union a b).parent x y ↔
        (sameRoot uf.parent x y ∨
         (sameRoot uf.parent x a ∧ sameRoot uf.parent y b) ∨
         (sameRoot uf.parent x b ∧ sameRoot uf.parent y a))) := by
  obtain ⟨ra, uf1, heq1, hra, hwf1, hk1, hr1, hiff1⟩ := find_spec uf hwf a ha
  obtain ⟨rb, uf2, heq2, hrb1, hwf2, hk2, hr2, hiff2⟩ :=
    find_spec uf1 hwf1 b (by rw [hk1]; exact hb)
  have hrb : RootedAt uf.parent b rb := (hiff1 b rb).mp hrb1
  have hk : alkeys uf2.parent = alkeys uf.parent := hk2.trans hk1
  have hiff : ∀ m s, RootedAt uf2.parent m s ↔ RootedAt uf.parent m s :=
    fun m s => (hiff2 m s).trans (hiff1 m s)
  have hram : ra ∈ alkeys uf.parent := rootedAt_mem uf hwf hra ha
  have hrbm : rb ∈ alkeys uf.parent := rootedAt_mem uf hwf hrb hb
  have hram2 : ra ∈ alkeys uf2.parent := by rw [hk]; exact hram
  have hrbm2 : rb ∈ alkeys uf2.parent := by rw [hk]; exact hrbm
  have hrafix : alget uf2.parent ra "" = ra := rootedAt_fixpoint ((hiff a ra).mpr hra)
  have hrbfix : alget uf2.parent rb "" = rb := rootedAt_fixpoint ((hiff b rb).mpr hrb)
  have e1 : ∀ z, RootedAt uf2.parent z ra ↔ sameRoot uf.parent z a :=
    fun z => (hiff z ra).trans (sameRoot_root_iff hra z).symm
  have e2 : ∀ z, RootedAt uf2.parent z rb ↔ sameRoot uf.parent z b :=
    fun z => (hiff z rb).trans (sameRoot_root_iff hrb z).symm
  have hun : uf.union a b =
      (if ra = rb then uf2
       else if alget uf2.rank ra 0 < alget uf2.rank rb 0 then
         { uf2 with parent := alset uf2.parent ra rb }
       else if alget uf2.rank rb 0 < alget uf2.rank ra 0 then
         { uf2 with parent := alset uf2.parent rb ra }
       else
         { parent := alset uf2.parent rb ra,
           rank := alset uf2.rank ra (alget uf2.rank ra 0 + 1) }) := by
    unfold unionFind.union
    rw [heq1]
    dsimp only
    rw [heq2]
  by_cases hcase : ra = rb
  · rw [hun, if_pos hcase]
    refine ⟨hwf2, hk, ?_⟩
    intro x y
    rw [sameRoot_congr hiff x y]
    constructor
    · exact Or.inl
    · rintro (h | ⟨h1, h2⟩ | ⟨h1, h2⟩)
      · exact h
      · rw [sameRoot_root_iff hra x] at h1
        rw [sameRoot_root_iff hrb y] at h2
        exact ⟨ra, h1, hcase ▸ h2⟩
      · rw [sameRoot_root_iff hrb x] at h1
        rw [sameRoot_root_iff hra y] at h2
        exact ⟨ra, hcase ▸ h1, h2⟩
  · rw [hun, if_neg hcase]
    by_cases hlt1 : alget uf2.rank ra 0 < alget uf2.rank rb 0
    · rw [if_pos hlt1]
      refine ⟨?_, ?_, ?_⟩
      · exact link_WF uf2 hwf2 ra rb hram2 hrbm2 hrbfix hcase uf2.rank hlt1
          (fun _ _ => rfl) le_rfl
      · simp only
        rw [alkeys_alset_mem _ _ _ hram2]
        exact hk
      · intro x y
        simp only
        rw [sameRoot_link uf2.parent ra rb hrafix hrbfix hcase x y]
        exact or_congr (sameRoot_congr hiff x y)
          (or_congr (and_congr (e1 x) (e2 y)) (and_congr (e2 x) (e1 y)))
    · rw [if_neg hlt1]
      have hchar : ∀ x y,
          sameRoot (alset uf2.parent rb ra) x y ↔
            (sameRoot uf.parent x y ∨
             (sameRoot uf.parent x a ∧ sameRoot uf.parent y b) ∨
             (sameRoot uf.parent x b ∧ sameRoot uf.parent y a)) := by
        intro x y
        rw [sameRoot_link uf2.parent rb ra hrbfix hrafix (Ne.symm hcase) x y]
        refine (or_congr (sameRoot_congr hiff x y)
          (or_congr (and_congr (e2 x) (e1 y)) (and_congr (e1 x) (e2 y)))).trans ?_
        exact or_congr Iff.rfl (or_comm)
      have hkeys' : alkeys (alset uf2.parent rb ra) = alkeys uf.parent := by
        rw [alkeys_alset_mem _ _ _ hrbm2]
        exact hk
      by_cases hlt2 : alget uf2.rank rb 0 < alget uf2.rank ra 0
      · rw [if_pos hlt2]
        refine ⟨?_, hkeys', fun x y => hchar x y⟩
        exact link_WF uf2 hwf2 rb ra hrbm2 hram2 hrafix (Ne.symm hcase) uf2.rank hlt2
          (fun _ _ => rfl) le_rfl
      · rw [if_neg hlt2]
        refine ⟨?_, hkeys', fun x y => hchar x y⟩
        refine link_WF uf2 hwf2 rb ra hrbm2 hram2 hrafix (Ne.symm hcase)
          (alset uf2.rank ra (alget uf2.rank ra 0 + 1)) ?_ ?_ ?_
        · rw [alget_alset, alget_alset, if_neg (Ne.symm hcase), if_pos rfl]
          omega
        · intro m hm
          rw [alget_alset, if_neg hm]
        · rw [alget_alset, if_pos rfl]
          omega

/-! ### getComponents: a partition into same-root buckets -/

def bjoin (m : List (String × List String)) : List String :=
  (m.map Prod.snd).flatten

theorem bjoin_alset (m : List (String × List String)) (r x : String) :
    List.Perm (bjoin (alset m r (alget m r [] ++ [x]))) (bjoin m ++ [x]) := by
  induction m with
  | nil =>
    simp [alset, alget, bjoin]
  | cons hd tl ih =>
    obtain ⟨k0, b0⟩ := hd
    by_cases h : k0 = r
    · subst h
      rw [alget_cons_self, alset_cons_self]
      simp only [bjoin, List.map_cons, List.flatten_cons]
      rw [List.append_assoc, List.append_assoc]
      exact List.Perm.append_left b0 (List.perm_append_comm)
    · rw [alget_cons_ne k0 r b0 tl [] (fun habs => h habs.symm),
        alset_cons_ne _ _ _ _ _ h]
      simp only [bjoin, List.map_cons, List.flatten_cons]
      refine List.Perm.trans (List.Perm.append_left b0 ih) ?_
      rw [List.append_assoc]
      exact List.Perm.refl _

theorem getComponentsAux_fold (uf0 : unionFind) :
    ∀ (todo : List String) (m : List (String × List String)) (u : unionFind),
    (∀ x ∈ todo, x ∈ alkeys uf0.parent) →
    WF u → alkeys u.parent = alkeys uf0.parent →
    (∀ a b, RootedAt u.parent a b ↔ RootedAt uf0.parent a b) →
    (alkeys m).Nodup →
    (∀ p ∈ m, ∀ x ∈ p.2, RootedAt uf0.parent x p.1) →
    (∀ p ∈ m, p.2 ≠ []) →
    (List.Perm (bjoin (todo.foldl (fun acc node =>
        let f := acc.2.find node
        (alset acc.1 f.1 (alget acc.1 f.1 [] ++ [node]), f.2)) (m, u)).1)
      (bjoin m ++ todo)) ∧
    (alkeys (todo.foldl (fun acc node =>
        let f := acc.2.find node
        (alset acc.1 f.1 (alget acc.1 f.1 [] ++ [node]), f.2)) (m, u)).1).Nodup ∧
    (∀ p ∈ (todo.foldl (fun acc node =>
        let f := acc.2.find node
        (alset acc.1 f.1 (alget acc.1 f.1 [] ++ [node]), f.2)) (m, u)).1,
      ∀ x ∈ p.2, RootedAt uf0.parent x p.1) ∧
    (∀ p ∈ (todo.foldl (fun acc node =>
        let f := acc.2.find node
        (alset acc.1 f.1 (alget acc.1 f.1 [] ++ [node]), f.2)) (m, u)).1,
      p.2 ≠ []) := by
  intro todo
  induction todo with
  | nil =>
    intro m u _ _ _ _ hnodup hroots hne
    exact ⟨by simp, hnodup, hroots, hne⟩
  | cons node rest ih =>
    intro m u htodo hwfu hku hiffu hnodup hroots hne
    have hnodek : node ∈ alkeys u.parent := by
      rw [hku]; exact htodo node (List.mem_cons_self _ _)
    obtain ⟨r, u', hfind, hrooted, hwf', hk', hr', hiff'⟩ :=
      find_spec u hwfu node hnodek
    have hrooted0 : RootedAt uf0.parent node r := (hiffu node r).mp hrooted
    have hstep : (node :: rest).foldl (fun acc node =>
        let f := acc.2.find node
        (alset acc.1 f.1 (alget acc.1 f.1 [] ++ [node]), f.2)) (m, u) =
        rest.foldl (fun acc node =>
          let f := acc.2.find node
          (alset acc.1 f.1 (alget acc.1 f.1 [] ++ [node]), f.2))
          (alset m r (alget m r [] ++ [node]), u') := by
      rw [List.foldl_cons]
      dsimp only
      rw [hfind]
    rw [hstep]
    have hm'nodup : (alkeys (alset m r (alget m r [] ++ [node]))).Nodup := by
      by_cases hrm : r ∈ alkeys m
      · rw [alkeys_alset_mem _ _ _ hrm]; exact hnodup
      · rw [alkeys_alset_not_mem _ _ _ hrm]
        rw [List.nodup_append]
        exact ⟨hnodup, List.nodup_singleton r,
          fun a ha hb => by simp only [List.mem_singleton] at hb; exact hrm (hb ▸ ha)⟩
    have hm'roots : ∀ p ∈ alset m r (alget m r [] ++ [node]),
        ∀ x ∈ p.2, RootedAt uf0.parent x p.1 := by
      intro p hp x hx
      rcases (mem_alset_iff m r _ hnodup p).mp hp with h1 | ⟨h1, _⟩
      · subst h1
        simp only at hx
        rcases List.mem_append.mp hx with h2 | h2
        · by_cases hrm : r ∈ alkeys m
          · exact hroots (r, alget m r []) (mem_of_alkeys m r [] hrm) x h2
          · rw [show alget m r ([] : List String) = [] from ?_] at h2
            · simp at h2
            · unfold alget
              rw [List.find?_eq_none.mpr]
              intro p hp2
              simp only [decide_eq_true_eq]
              intro habs
              exact hrm (habs ▸ List.mem_map.mpr ⟨p, hp2, rfl⟩)
        · simp only [List.mem_singleton] at h2
          subst h2
          exact hrooted0
      · exact hroots p h1 x hx
    have hm'ne : ∀ p ∈ alset m r (alget m r [] ++ [node]), p.2 ≠ [] := by
      intro p hp
      rcases (mem_alset_iff m r _ hnodup p).mp hp with h1 | ⟨h1, _⟩
      · subst h1
        simp
      · exact hne p h1
    obtain ⟨hperm, hnd, hrt, hnem⟩ := ih (alset m r (alget m r [] ++ [node])) u'
      (fun x hx => htodo x (List.mem_cons_of_mem _ hx))
      hwf' (hk'.trans hku) (fun a b => (hiff' a b).trans (hiffu a b))
      hm'nodup hm'roots hm'ne
    refine ⟨?_, hnd, hrt, hnem⟩
    refine hperm.trans ?_
    refine List.Perm.trans ((bjoin_alset m r node).append_right rest) ?_
    rw [List.append_assoc]
    simp

/-- `getComponents` of a well-formed union-find partitions its key set
into nonempty buckets of nodes sharing a root, different buckets having
different roots. -/
theorem getComponents_spec (uf : unionFind) (hwf : WF uf) :
    (List.Perm (uf.getComponents).flatten (alkeys uf.parent)) ∧
    (∀ c ∈ uf.getComponents, c ≠ []) ∧
    (∀ c ∈ uf.getComponents, ∃ r, ∀ x ∈ c, RootedAt uf.parent x r) ∧
    List.Pairwise (fun c c' => ∀ x ∈ c, ∀ y ∈ c', ¬ sameRoot uf.parent x y)
      uf.getComponents := by
  obtain ⟨hperm, hnd, hrt, hnem⟩ := getComponentsAux_fold uf uf.keys [] uf
    (fun x hx => hx) hwf rfl (fun _ _ => Iff.rfl) (by simp [alkeys])
    (by simp) (by simp)
  have hcomp : uf.getComponents =
      ((uf.getComponentsAux).1).map Prod.snd := rfl
  have haux : uf.getComponentsAux = uf.keys.foldl (fun acc node =>
      let f := acc.2.find node
      (alset acc.1 f.1 (alget acc.1 f.1 [] ++ [node]), f.2)) ([], uf) := rfl
  refine ⟨?_, ?_, ?_, ?_⟩
  · rw [hcomp, haux]
    simpa [bjoin] using hperm
  · intro c hc
    rw [hcomp, haux] at hc
    obtain ⟨p, hp, hpc⟩ := List.mem_map.mp hc
    exact hpc ▸ hnem p hp
  · intro c hc
    rw [hcomp, haux] at hc
    obtain ⟨p, hp, hpc⟩ := List.mem_map.mp hc
    exact ⟨p.1, fun x hx => hrt p hp x (hpc ▸ hx)⟩
  · rw [hcomp, haux]
    rw [List.pairwise_map]
    have hkeysnd : List.Pairwise (fun (p q : String × List String) => p.1 ≠ q.1)
        (uf.keys.foldl (fun acc node =>
          let f := acc.2.find node
          (alset acc.1 f.1 (alget acc.1 f.1 [] ++ [node]), f.2)) ([], uf)).1 := by
      have h1 := hnd
      unfold alkeys at h1
      unfold List.Nodup at h1
      exact List.pairwise_map.mp h1
    refine List.Pairwise.imp_of_mem ?_ hkeysnd
    intro p q hp hq hne12 x hx y hy
    rintro ⟨r, hxr, hyr⟩
    have h1 : r = p.1 := rootedAt_unique hxr (hrt p hp x hx)
    have h2 : r = q.1 := rootedAt_unique hyr (hrt q hq y hy)
    exact hne12 (h1 ▸ h2)

theorem alget_not_mem {β : Type} (l : List (String × β)) (k : String) (d : β)
    (hk : k ∉ alkeys l) : alget l k d = d := by
  unfold alget
  rw [List.find?_eq_none.mpr]
  intro p hp
  simp only [decide_eq_true_eq]
  intro habs
  exact hk (habs ▸ List.mem_map.mpr ⟨p, hp, rfl⟩)

theorem rootedAt_total (uf : unionFind) (hwf : WF uf) (x : String) :
    ∃ r, RootedAt uf.parent x r := by
  by_cases hx : x ∈ alkeys uf.parent
  · exact rootedAt_exists uf hwf x hx
  · have hget : alget uf.parent x "" = "" := alget_not_mem uf.parent x "" hx
    by_cases hxe : x = ""
    · exact ⟨x, RootedAt.root x (by rw [hget, hxe])⟩
    · have hroot : ∃ r, RootedAt uf.parent "" r := by
        by_cases he : "" ∈ alkeys uf.parent
        · exact rootedAt_exists uf hwf "" he
        · exact ⟨"", RootedAt.root "" (alget_not_mem uf.parent "" "" he)⟩
      obtain ⟨r, hr⟩ := hroot
      exact ⟨r, RootedAt.step x r (by rw [hget]; exact Ne.symm hxe)
        (by rw [hget]; exact hr)⟩

theorem sameRoot_equivalence (uf : unionFind) (hwf : WF uf) :
    Equivalence (sameRoot uf.parent) := by
  refine ⟨?_, ?_, ?_⟩
  · intro x
    obtain ⟨r, hr⟩ := rootedAt_total uf hwf x
    exact ⟨r, hr, hr⟩
  · rintro x y ⟨r, h1, h2⟩
    exact ⟨r, h2, h1⟩
  · rintro x y z ⟨r, h1, h2⟩ ⟨r', h3, h4⟩
    exact ⟨r, h1, rootedAt_unique h3 h2 ▸ h4⟩

theorem eqvGen_le {α : Type} {r s : α → α → Prop}
    (h : ∀ u v, r u v → Relation.EqvGen s u v) {x y : α}
    (hxy : Relation.EqvGen r x y) : Relation.EqvGen s x y := by
  induction hxy with
  | rel u v huv => exact h u v huv
  | refl u => exact Relation.EqvGen.refl u
  | symm u v _ ih => exact Relation.EqvGen.symm u v ih
  | trans u v w _ _ ih1 ih2 => exact Relation.EqvGen.trans u v w ih1 ih2

/-- Folding `add` over a list of fresh, unduplicated names starting from
a union-find whose nodes are all their own roots (as in
`calculateStructLCOM4`) appends the names to the key set and keeps every
node its own root. -/
theorem addAll_fresh (names : List String) :
    ∀ (uf : unionFind), WF uf →
    (∀ x ∈ alkeys uf.parent, alget uf.parent x "" = x) →
    (names ++ alkeys uf.parent).Nodup →
    WF (names.foldl (fun u n => u.add n) uf) ∧
    alkeys (names.foldl (fun u n => u.add n) uf).parent =
      alkeys uf.parent ++ names ∧
    (∀ x ∈ alkeys (names.foldl (fun u n => u.add n) uf).parent,
      alget (names.foldl (fun u n => u.add n) uf).parent x "" = x) := by
  induction names with
  | nil =>
    intro uf hwf hself _
    exact ⟨hwf, by simp, hself⟩
  | cons n rest ih =>
    intro uf hwf hself hnodup
    have hn : n ∉ alkeys uf.parent := by
      rw [List.cons_append, List.nodup_cons] at hnodup
      intro habs
      exact hnodup.1 (List.mem_append_right rest habs)
    obtain ⟨hwf1, _, hfresh⟩ := add_spec uf hwf n
    obtain ⟨hk1, _, _⟩ := hfresh hn
    have hpar1 : (uf.add n).parent = alset uf.parent n n := by
      unfold unionFind.add
      rw [if_neg]
      intro habs
      exact hn ((hasKey_iff uf.parent n).mp habs)
    have hself1 : ∀ x ∈ alkeys (uf.add n).parent,
        alget (uf.add n).parent x "" = x := by
      intro x hx
      rw [hk1, List.mem_append] at hx
      rw [hpar1, alget_alset]
      rcases hx with h1 | h1
      · rw [if_neg (fun habs => hn (by rw [← habs]; exact h1))]
        exact hself x h1
      · simp only [List.mem_singleton] at h1
        rw [if_pos h1]
        exact h1.symm
    have hnodup1 : (rest ++ alkeys (uf.add n).parent).Nodup := by
      rw [hk1]
      have hperm : List.Perm (rest ++ (alkeys uf.parent ++ [n]))
          (n :: (rest ++ alkeys uf.parent)) := by
        rw [← List.append_assoc]
        exact @List.perm_append_comm _ (rest ++ alkeys uf.parent) [n]
      exact hperm.nodup_iff.mpr (by rwa [List.cons_append] at hnodup)
    rw [List.foldl_cons]
    obtain ⟨hwfr, hkr, hselfr⟩ := ih (uf.add n) hwf1 hself1 hnodup1
    refine ⟨hwfr, ?_, hselfr⟩
    rw [hkr, hk1, List.append_assoc]
    rfl

/-- Pair edges recorded in a list. -/
def pairRel (E : List (String × String)) (u v : String) : Prop :=
  ∃ e ∈ E, (u = e.1 ∧ v = e.2) ∨ (u = e.2 ∧ v = e.1)

/-- Folding `union` over an edge list merges exactly the edge-connected
components: two nodes share a root afterwards iff they are related by
the equivalence closure of (previous same-root relation ∪ edges). -/
theorem unionEdges_spec (edges : List (String × String)) :
    ∀ (uf : unionFind), WF uf →
    (∀ e ∈ edges, e.1 ∈ alkeys uf.parent ∧ e.2 ∈ alkeys uf.parent) →
    WF (edges.foldl (fun u e => u.union e.1 e.2) uf) ∧
    alkeys (edges.foldl (fun u e => u.union e.1 e.2) uf).parent =
      alkeys uf.parent ∧
    (∀ x y, sameRoot (edges.foldl (fun u e => u.union e.1 e.2) uf).parent x y ↔
      Relation.EqvGen (fun u v => sameRoot uf.parent u v ∨ pairRel edges u v) x y) := by
  induction edges with
  | nil =>
    intro uf hwf _
    refine ⟨hwf, rfl, ?_⟩
    intro x y
    have hequiv : Equivalence (fun u v =>
        sameRoot uf.parent u v ∨ pairRel ([] : List (String × String)) u v) := by
      have h0 := sameRoot_equivalence uf hwf
      refine ⟨fun x => Or.inl (h0.refl x), ?_, ?_⟩
      · rintro x y (h | ⟨e, he, _⟩)
        · exact Or.inl (h0.symm h)
        · simp at he
      · rintro x y z (h1 | ⟨e, he, _⟩) h2
        · rcases h2 with h2 | ⟨e, he, _⟩
          · exact Or.inl (h0.trans h1 h2)
          · simp at he
        · simp at he
    rw [hequiv.eqvGen_iff]
    simp only [List.foldl_nil]
    constructor
    · exact Or.inl
    · rintro (h | ⟨e, he, _⟩)
      · exact h
      · simp at he
  | cons e rest ih =>
    intro uf hwf hedges
    obtain ⟨ha, hb⟩ := hedges e (List.mem_cons_self _ _)
    obtain ⟨hwfu, hku, hiffu⟩ := union_spec uf hwf e.1 e.2 ha hb
    rw [List.foldl_cons]
    obtain ⟨hwfr, hkr, hiffr⟩ := ih (uf.union e.1 e.2) hwfu
      (fun e2 he2 => by
        rw [hku]
        exact hedges e2 (List.mem_cons_of_mem _ he2))
    refine ⟨hwfr, hkr.trans hku, ?_⟩
    intro x y
    rw [hiffr x y]
    constructor
    · intro h
      refine eqvGen_le ?_ h
      rintro u v (h1 | h1)
      · rw [hiffu u v] at h1
        rcases h1 with h2 | ⟨h2, h3⟩ | ⟨h2, h3⟩
        · exact Relation.EqvGen.rel u v (Or.inl h2)
        · refine Relation.EqvGen.trans u e.1 v
            (Relation.EqvGen.rel _ _ (Or.inl h2)) ?_
          refine Relation.EqvGen.trans e.1 e.2 v
            (Relation.EqvGen.rel _ _ (Or.inr ⟨e, List.mem_cons_self _ _, Or.inl ⟨rfl, rfl⟩⟩)) ?_
          exact Relation.EqvGen.symm _ _ (Relation.EqvGen.rel _ _ (Or.inl h3))
        · refine Relation.EqvGen.trans u e.2 v
            (Relation.EqvGen.rel _ _ (Or.inl h2)) ?_
          refine Relation.EqvGen.trans e.2 e.1 v
            (Relation.EqvGen.rel _ _ (Or.inr ⟨e, List.mem_cons_self _ _, Or.inr ⟨rfl, rfl⟩⟩)) ?_
          exact Relation.EqvGen.symm _ _ (Relation.EqvGen.rel _ _ (Or.inl h3))
      · exact Relation.EqvGen.rel u v
          (Or.inr (by
            obtain ⟨e2, he2, hcase⟩ := h1
            exact ⟨e2, List.mem_cons_of_mem _ he2, hcase⟩))
    · intro h
      refine eqvGen_le ?_ h
      rintro u v (h1 | ⟨e2, he2, hcase⟩)
      · exact Relation.EqvGen.rel u v (Or.inl ((hiffu u v).mpr (Or.inl h1)))
      · rcases List.mem_cons.mp he2 with h2 | h2
        · subst h2
          have hequiv := sameRoot_equivalence uf hwf
          rcases hcase with ⟨hu, hv⟩ | ⟨hu, hv⟩
          · subst hu; subst hv
            refine Relation.EqvGen.rel _ _ (Or.inl ?_)
            rw [hiffu]
            exact Or.inr (Or.inl ⟨hequiv.refl _, hequiv.refl _⟩)
          · subst hu; subst hv
            refine Relation.EqvGen.rel _ _ (Or.inl ?_)
            rw [hiffu]
            exact Or.inr (Or.inr ⟨hequiv.refl _, hequiv.refl _⟩)
        · exact Relation.EqvGen.rel u v (Or.inr ⟨e2, h2, hcase⟩)

/-! ### The bipartite method/field graph of the cohesion analyzer -/

/-- Specification-side edge relation of LCOM4's bipartite graph: a
method touches each field it reads or writes. -/
def touches (methods : List methodInfo) (x y : String) : Prop :=
  ∃ m ∈ methods, (x = m.name ∧ y ∈ m.usedFields) ∨ (y = m.name ∧ x ∈ m.usedFields)

/-- The union calls `calculateStructLCOM4` performs, as an edge list. -/
def lcom4Edges (methods : List methodInfo) : List (String × String) :=
  methods.flatMap (fun m => m.usedFields.map (fun f => (m.name, f)))

theorem lcom4_union_fold (methods : List methodInfo) (uf0 : unionFind) :
    methods.foldl (fun uf m =>
        m.usedFields.foldl (fun u f => u.union m.name f) uf) uf0 =
      (lcom4Edges methods).foldl (fun u e => u.union e.1 e.2) uf0 := by
  induction methods generalizing uf0 with
  | nil => rfl
  | cons m rest ih =>
    rw [List.foldl_cons]
    unfold lcom4Edges
    rw [List.flatMap_cons, List.foldl_append, List.foldl_map]
    rw [ih]
    rfl

theorem touches_iff_pairRel (methods : List methodInfo) (x y : String) :
    touches methods x y ↔ pairRel (lcom4Edges methods) x y := by
  constructor
  · rintro ⟨m, hm, ⟨hx, hy⟩ | ⟨hy, hx⟩⟩
    · refine ⟨(m.name, y), ?_, Or.inl ⟨hx, rfl⟩⟩
      unfold lcom4Edges
      exact List.mem_flatMap.mpr ⟨m, hm, List.mem_map.mpr ⟨y, hy, rfl⟩⟩
    · refine ⟨(m.name, x), ?_, Or.inr ⟨rfl, hy⟩⟩
      unfold lcom4Edges
      exact List.mem_flatMap.mpr ⟨m, hm, List.mem_map.mpr ⟨x, hx, rfl⟩⟩
  · rintro ⟨e, he, hcase⟩
    unfold lcom4Edges at he
    obtain ⟨m, hm, hmem⟩ := List.mem_flatMap.mp he
    obtain ⟨f, hf, hef⟩ := List.mem_map.mp hmem
    subst hef
    simp only at hcase
    rcases hcase with ⟨hx, hy⟩ | ⟨hx, hy⟩
    · exact ⟨m, hm, Or.inl ⟨hx, hy ▸ hf⟩⟩
    · exact ⟨m, hm, Or.inr ⟨hy, hx ▸ hf⟩⟩

theorem WF_newUnionFind : WF newUnionFind := by
  refine ⟨?_, ?_, ?_⟩ <;> simp [newUnionFind, alkeys]

theorem rootedAt_self_char (uf : unionFind)
    (hself : ∀ x ∈ alkeys uf.parent, alget uf.parent x "" = x)
    (hempty : "" ∉ alkeys uf.parent) :
    ∀ u r, RootedAt uf.parent u r →
      (u ∈ alkeys uf.parent ∧ r = u) ∨ (u ∉ alkeys uf.parent ∧ r = "") := by
  intro u r h
  induction h with
  | root u h =>
    by_cases hu : u ∈ alkeys uf.parent
    · exact Or.inl ⟨hu, rfl⟩
    · have : alget uf.parent u "" = "" := alget_not_mem uf.parent u "" hu
      exact Or.inr ⟨hu, h.symm.trans this⟩
  | step u r hne hrest ih =>
    by_cases hu : u ∈ alkeys uf.parent
    · exact absurd (hself u hu) hne
    · have hget : alget uf.parent u "" = "" := alget_not_mem uf.parent u "" hu
      rw [hget] at ih
      rcases ih with ⟨h1, h2⟩ | ⟨_, h2⟩
      · exact absurd h1 hempty
      · exact Or.inr ⟨hu, h2⟩

/-- Core correctness of the cohesion analyzer's union-find build: after
adding all methods and fields and unioning each method with its used
fields, two nodes of the graph share a root iff they are connected in
the bipartite touch graph. -/
theorem lcom4_sameRoot_iff (fields : List String) (methods : List methodInfo)
    (hnodup : ((methods.map methodInfo.name) ++ fields).Nodup)
    (hempty : "" ∉ methods.map methodInfo.name ++ fields)
    (husage : ∀ m ∈ methods, ∀ f ∈ m.usedFields, f ∈ fields) :
    WF (methods.foldl
        (fun uf m => m.usedFields.foldl (fun u f => u.union m.name f) uf)
        (fields.foldl (fun uf f => uf.add f)
          (methods.foldl (fun uf m => uf.add m.name) newUnionFind))) ∧
    alkeys (methods.foldl
        (fun uf m => m.usedFields.foldl (fun u f => u.union m.name f) uf)
        (fields.foldl (fun uf f => uf.add f)
          (methods.foldl (fun uf m => uf.add m.name) newUnionFind))).parent =
      methods.map methodInfo.name ++ fields ∧
    (∀ x y, x ∈ methods.map methodInfo.name ++ fields →
      (sameRoot (methods.foldl
          (fun uf m => m.usedFields.foldl (fun u f => u.union m.name f) uf)
          (fields.foldl (fun uf f => uf.add f)
            (methods.foldl (fun uf m => uf.add m.name) newUnionFind))).parent x y ↔
        Relation.EqvGen (touches methods) x y)) := by
  have hadds : fields.foldl (fun uf f => uf.add f)
      (methods.foldl (fun uf m => uf.add m.name) newUnionFind) =
      ((methods.map methodInfo.name) ++ fields).foldl
        (fun uf n => uf.add n) newUnionFind := by
    rw [List.foldl_append, List.foldl_map]
  obtain ⟨hwf1, hk1, hself1⟩ := addAll_fresh
    ((methods.map methodInfo.name) ++ fields) newUnionFind WF_newUnionFind
    (by intro x hx; simp [newUnionFind, alkeys] at hx)
    (by simpa [newUnionFind, alkeys] using hnodup)
  rw [← hadds] at hwf1 hk1 hself1
  have hk1' : alkeys (fields.foldl (fun uf f => uf.add f)
      (methods.foldl (fun uf m => uf.add m.name) newUnionFind)).parent =
      methods.map methodInfo.name ++ fields := by
    rw [hk1]
    simp [newUnionFind, alkeys]
  set uf1 := fields.foldl (fun uf f => uf.add f)
    (methods.foldl (fun uf m => uf.add m.name) newUnionFind) with huf1
  have hedges : ∀ e ∈ lcom4Edges methods,
      e.1 ∈ alkeys uf1.parent ∧ e.2 ∈ alkeys uf1.parent := by
    intro e he
    unfold lcom4Edges at he
    obtain ⟨m, hm, hmem⟩ := List.mem_flatMap.mp he
    obtain ⟨f, hf, hef⟩ := List.mem_map.mp hmem
    subst hef
    rw [hk1']
    constructor
    · exact List.mem_append_left _ (List.mem_map.mpr ⟨m, hm, rfl⟩)
    · exact List.mem_append_right _ (husage m hm f hf)
  obtain ⟨hwf2, hk2, hiff2⟩ := unionEdges_spec (lcom4Edges methods) uf1 hwf1 hedges
  rw [lcom4_union_fold]
  refine ⟨hwf2, hk2.trans hk1', ?_⟩
  intro x y hx
  rw [hiff2 x y]
  have hchar := rootedAt_self_char uf1 hself1 (by rw [hk1']; exact hempty)
  constructor
  · intro h
    have main : ∀ u v,
        Relation.EqvGen (fun u v => sameRoot uf1.parent u v ∨
          pairRel (lcom4Edges methods) u v) u v →
        ((u ∈ alkeys uf1.parent ∧ v ∈ alkeys uf1.parent ∧
            Relation.EqvGen (touches methods) u v) ∨
         (u ∉ alkeys uf1.parent ∧ v ∉ alkeys uf1.parent) ∨ u = v) := by
      intro u v huv
      induction huv with
      | rel u v hr =>
        rcases hr with ⟨r, hu, hv⟩ | hp
        · rcases hchar u r hu with ⟨h1, h2⟩ | ⟨h1, h2⟩ <;>
            rcases hchar v r hv with ⟨h3, h4⟩ | ⟨h3, h4⟩
          · exact Or.inr (Or.inr (h2.symm.trans h4))
          · exact absurd (h4 ▸ h2 ▸ h1) (by rw [hk1']; exact hempty)
          · exact absurd (h2 ▸ h4 ▸ h3) (by rw [hk1']; exact hempty)
          · exact Or.inr (Or.inl ⟨h1, h3⟩)
        · obtain ⟨e, he, hcase⟩ := hp
          obtain ⟨he1, he2⟩ := hedges e he
          have htch : touches methods u v :=
            (touches_iff_pairRel methods u v).mpr ⟨e, he, hcase⟩
          rcases hcase with ⟨hu, hv⟩ | ⟨hu, hv⟩
          · exact Or.inl ⟨by rw [hu]; exact he1, by rw [hv]; exact he2,
              Relation.EqvGen.rel u v htch⟩
          · exact Or.inl ⟨by rw [hu]; exact he2, by rw [hv]; exact he1,
              Relation.EqvGen.rel u v htch⟩
      | refl u => exact Or.inr (Or.inr rfl)
      | symm u v _ ih =>
        rcases ih with ⟨h1, h2, h3⟩ | ⟨h1, h2⟩ | h1
        · exact Or.inl ⟨h2, h1, Relation.EqvGen.symm _ _ h3⟩
        · exact Or.inr (Or.inl ⟨h2, h1⟩)
        · exact Or.inr (Or.inr h1.symm)
      | trans u v w _ _ ih1 ih2 =>
        rcases ih1 with ⟨h1, h2, h3⟩ | ⟨h1, h2⟩ | h1
        · rcases ih2 with ⟨h4, h5, h6⟩ | ⟨h4, h5⟩ | h4
          · exact Or.inl ⟨h1, h5, Relation.EqvGen.trans _ _ _ h3 h6⟩
          · exact absurd h2 h4
          · exact Or.inl ⟨h1, h4 ▸ h2, h4 ▸ h3⟩
        · rcases ih2 with ⟨h4, h5, h6⟩ | ⟨h4, h5⟩ | h4
          · exact absurd h4 h2
          · exact Or.inr (Or.inl ⟨h1, h5⟩)
          · exact Or.inr (Or.inl ⟨h1, h4 ▸ h2⟩)
        · subst h1
          exact ih2
    rcases main x y h with ⟨_, _, h3⟩ | ⟨h1, _⟩ | h1
    · exact h3
    · exact absurd (by rw [hk1']; exact hx) h1
    · exact h1 ▸ Relation.EqvGen.refl x
  · intro h
    refine eqvGen_le ?_ h
    intro u v huv
    exact Relation.EqvGen.rel u v (Or.inr ((touches_iff_pairRel methods u v).mp huv))

/-- Claim C2: for every struct with at least one method, `lcom4Score`
equals the number of connected components of the bipartite graph whose
nodes are the struct's methods and fields, with an edge between a method
and each field it touches (any recorded usage counts): the reported
components are nonempty, jointly contain every method and field exactly
once, members of one component are pairwise connected, members of
distinct components are never connected, and the score is the number of
components (so a struct where every method touches every field has one
component and scores 1).  The hypotheses record fact-model guarantees:
names are distinct nonempty identifiers and usage refers to declared
fields. -/
theorem lcom4_counts_components (structName fileName : String)
    (fields : List String) (methods : List methodInfo)
    (hne : methods ≠ [])
    (hnodup : ((methods.map methodInfo.name) ++ fields).Nodup)
    (hempty : "" ∉ methods.map methodInfo.name ++ fields)
    (husage : ∀ m ∈ methods, ∀ f ∈ m.usedFields, f ∈ fields) :
    List.Perm
      (calculateStructLCOM4 structName fileName fields methods).ComponentDetails.flatten
      (methods.map methodInfo.name ++ fields) ∧
    (∀ c ∈ (calculateStructLCOM4 structName fileName fields methods).ComponentDetails,
      c ≠ []) ∧
    (∀ c ∈ (calculateStructLCOM4 structName fileName fields methods).ComponentDetails,
      ∀ x ∈ c, ∀ y ∈ c, Relation.EqvGen (touches methods) x y) ∧
    List.Pairwise
      (fun c c' => ∀ x ∈ c, ∀ y ∈ c', ¬ Relation.EqvGen (touches methods) x y)
      (calculateStructLCOM4 structName fileName fields methods).ComponentDetails ∧
    (calculateStructLCOM4 structName fileName fields methods).LCOM4Score =
      ((calculateStructLCOM4 structName fileName fields methods).ComponentDetails.length : Int) := by
  have hlen : ¬ (methods.length = 0) := by
    simpa [List.length_eq_zero] using hne
  obtain ⟨hwf2, hkeys2, hbridge⟩ := lcom4_sameRoot_iff fields methods hnodup hempty husage
  have hres : calculateStructLCOM4 structName fileName fields methods =
      { StructName := structName, FilePath := fileName,
        LCOM4Score := ((methods.foldl
            (fun uf m => m.usedFields.foldl (fun u f => u.union m.name f) uf)
            (fields.foldl (fun uf f => uf.add f)
              (methods.foldl (fun uf m => uf.add m.name) newUnionFind))).getComponents.length : Int),
        ComponentDetails := (methods.foldl
            (fun uf m => m.usedFields.foldl (fun u f => u.union m.name f) uf)
            (fields.foldl (fun uf f => uf.add f)
              (methods.foldl (fun uf m => uf.add m.name) newUnionFind))).getComponents } := by
    unfold calculateStructLCOM4
    rw [if_neg hlen]
  set uf2 := methods.foldl
      (fun uf m => m.usedFields.foldl (fun u f => u.union m.name f) uf)
      (fields.foldl (fun uf f => uf.add f)
        (methods.foldl (fun uf m => uf.add m.name) newUnionFind)) with huf2
  obtain ⟨hperm, hnonempty, hroots, hpair⟩ := getComponents_spec uf2 hwf2
  have hmemkeys : ∀ c ∈ uf2.getComponents, ∀ x ∈ c,
      x ∈ methods.map methodInfo.name ++ fields := by
    intro c hc x hx
    rw [← hkeys2]
    exact hperm.mem_iff.mp (List.mem_flatten.mpr ⟨c, hc, hx⟩)
  rw [hres]
  refine ⟨?_, hnonempty, ?_, ?_, rfl⟩
  · simp only
    rw [← hkeys2]
    exact hperm
  · intro c hc x hx y hy
    obtain ⟨r, hr⟩ := hroots c hc
    exact (hbridge x y (hmemkeys c hc x hx)).mp ⟨r, hr x hx, hr y hy⟩
  · simp only
    refine List.Pairwise.imp_of_mem ?_ hpair
    intro c c' hc hc' hcc x hx y hy habs
    exact hcc x hx y hy ((hbridge x y (hmemkeys c hc x hx)).mpr habs)

/-- Witness for C2: a 2-method/2-field struct where method `m1` touches
both fields and `m2` touches `a` — a single connected component, score 1
(checked through the general theorem). -/
theorem lcom4_counts_components_witness :
    List.Perm
      (calculateStructLCOM4 "S" "f.go" ["a", "b"]
        [⟨"m1", ["a", "b"]⟩, ⟨"m2", ["a"]⟩]).ComponentDetails.flatten
      (([⟨"m1", ["a", "b"]⟩, ⟨"m2", ["a"]⟩] : List methodInfo).map methodInfo.name ++
        ["a", "b"]) ∧
    (∀ c ∈ (calculateStructLCOM4 "S" "f.go" ["a", "b"]
        [⟨"m1", ["a", "b"]⟩, ⟨"m2", ["a"]⟩]).ComponentDetails, c ≠ []) ∧
    (∀ c ∈ (calculateStructLCOM4 "S" "f.go" ["a", "b"]
        [⟨"m1", ["a", "b"]⟩, ⟨"m2", ["a"]⟩]).ComponentDetails,
      ∀ x ∈ c, ∀ y ∈ c,
        Relation.EqvGen (touches [⟨"m1", ["a", "b"]⟩, ⟨"m2", ["a"]⟩]) x y) ∧
    List.Pairwise
      (fun c c' => ∀ x ∈ c, ∀ y ∈ c',
        ¬ Relation.EqvGen (touches [⟨"m1", ["a", "b"]⟩, ⟨"m2", ["a"]⟩]) x y)
      (calculateStructLCOM4 "S" "f.go" ["a", "b"]
        [⟨"m1", ["a", "b"]⟩, ⟨"m2", ["a"]⟩]).ComponentDetails ∧
    (calculateStructLCOM4 "S" "f.go" ["a", "b"]
        [⟨"m1", ["a", "b"]⟩, ⟨"m2", ["a"]⟩]).LCOM4Score =
      ((calculateStructLCOM4 "S" "f.go" ["a", "b"]
        [⟨"m1", ["a", "b"]⟩, ⟨"m2", ["a"]⟩]).ComponentDetails.length : Int) :=
  lcom4_counts_components "S" "f.go" ["a", "b"]
    [⟨"m1", ["a", "b"]⟩, ⟨"m2", ["a"]⟩]
    (by decide) (by decide) (by decide) (by decide)

/-! ### Claim C10: arbitrary add/union sequences -/

inductive UFOp where
  | addOp : String → UFOp
  | unionOp : String → String → UFOp
deriving Repr, DecidableEq

def applyOp (uf : unionFind) : UFOp → unionFind
  | .addOp n => uf.add n
  | .unionOp a b => uf.union a b

def runOps (ops : List UFOp) : unionFind :=
  ops.foldl applyOp newUnionFind

/-- The set of nodes added by an operation sequence, starting from an
accumulator of already-present nodes. -/
def addedAcc : List String → List UFOp → List String
  | acc, [] => acc
  | acc, .addOp n :: rest => addedAcc (if n ∈ acc then acc else acc ++ [n]) rest
  | acc, .unionOp _ _ :: rest => addedAcc acc rest

/-- Valid sequences only union nodes that have been added before. -/
def opsValid : List String → List UFOp → Prop
  | _, [] => True
  | acc, .addOp n :: rest => opsValid (if n ∈ acc then acc else acc ++ [n]) rest
  | acc, .unionOp a b :: rest => a ∈ acc ∧ b ∈ acc ∧ opsValid acc rest

theorem runOps_invariant (ops : List UFOp) :
    ∀ (uf : unionFind) (acc : List String), WF uf → alkeys uf.parent = acc →
    opsValid acc ops →
    WF (ops.foldl applyOp uf) ∧
    alkeys (ops.foldl applyOp uf).parent = addedAcc acc ops := by
  induction ops with
  | nil =>
    intro uf acc hwf hk _
    exact ⟨hwf, hk⟩
  | cons op rest ih =>
    intro uf acc hwf hk hvalid
    rw [List.foldl_cons]
    match op with
    | .addOp n =>
      obtain ⟨hwf1, hmem, hfresh⟩ := add_spec uf hwf n
      unfold opsValid at hvalid
      unfold addedAcc
      by_cases hn : n ∈ acc
      · rw [if_pos hn] at hvalid ⊢
        have heq : uf.add n = uf := hmem (hk ▸ hn)
        exact ih (applyOp uf (.addOp n)) acc
          (by show WF (uf.add n); rw [heq]; exact hwf)
          (by show alkeys (uf.add n).parent = acc; rw [heq]; exact hk) hvalid
      · rw [if_neg hn] at hvalid ⊢
        obtain ⟨hk1, _, _⟩ := hfresh (hk ▸ hn)
        exact ih (applyOp uf (.addOp n)) (acc ++ [n]) hwf1
          (by show alkeys (uf.add n).parent = acc ++ [n]; rw [hk1, hk]) hvalid
    | .unionOp a b =>
      unfold opsValid at hvalid
      obtain ⟨ha, hb, hvalid⟩ := hvalid
      obtain ⟨hwf1, hk1, _⟩ := union_spec uf hwf a b (hk ▸ ha) (hk ▸ hb)
      unfold addedAcc
      exact ih (applyOp uf (.unionOp a b)) acc hwf1
        (by show alkeys (uf.union a b).parent = acc; rw [hk1, hk]) hvalid

/-- Claim C10: after any valid sequence of add and union operations the
lists returned by `getComponents` are nonempty and together contain each
added node exactly once, and consequently, for a struct with at least
one method, the cohesion result's `ComponentDetails` jointly contain
each method and field exactly once with `lcom4Score` the number of
component lists. -/
theorem getComponents_partitions :
    (∀ ops : List UFOp, opsValid [] ops →
      List.Perm (runOps ops).getComponents.flatten (addedAcc [] ops) ∧
      (∀ c ∈ (runOps ops).getComponents, c ≠ [])) ∧
    (∀ (structName fileName : String) (fields : List String)
       (methods : List methodInfo), methods ≠ [] →
      ((methods.map methodInfo.name) ++ fields).Nodup →
      (∀ m ∈ methods, ∀ f ∈ m.usedFields, f ∈ fields) →
      List.Perm
        (calculateStructLCOM4 structName fileName fields methods).ComponentDetails.flatten
        (methods.map methodInfo.name ++ fields) ∧
      (calculateStructLCOM4 structName fileName fields methods).LCOM4Score =
        ((calculateStructLCOM4 structName fileName fields methods).ComponentDetails.length : Int)) := by
  constructor
  · intro ops hvalid
    obtain ⟨hwf, hk⟩ := runOps_invariant ops newUnionFind [] WF_newUnionFind
      (by simp [newUnionFind, alkeys]) hvalid
    obtain ⟨hperm, hnonempty, _, _⟩ := getComponents_spec (runOps ops) hwf
    exact ⟨hk ▸ hperm, hnonempty⟩
  · intro structName fileName fields methods hne hnodup husage
    have hlen : ¬ (methods.length = 0) := by
      simpa [List.length_eq_zero] using hne
    have hadds : fields.foldl (fun uf f => uf.add f)
        (methods.foldl (fun uf m => uf.add m.name) newUnionFind) =
        ((methods.map methodInfo.name) ++ fields).foldl
          (fun uf n => uf.add n) newUnionFind := by
      rw [List.foldl_append, List.foldl_map]
    obtain ⟨hwf1, hk1, _⟩ := addAll_fresh
      ((methods.map methodInfo.name) ++ fields) newUnionFind WF_newUnionFind
      (by intro x hx; simp [newUnionFind, alkeys] at hx)
      (by simpa [newUnionFind, alkeys] using hnodup)
    rw [← hadds] at hwf1 hk1
    have hk1' : alkeys (fields.foldl (fun uf f => uf.add f)
        (methods.foldl (fun uf m => uf.add m.name) newUnionFind)).parent =
        methods.map methodInfo.name ++ fields := by
      rw [hk1]
      simp [newUnionFind, alkeys]
    have hedges : ∀ e ∈ lcom4Edges methods,
        e.1 ∈ alkeys (fields.foldl (fun uf f => uf.add f)
          (methods.foldl (fun uf m => uf.add m.name) newUnionFind)).parent ∧
        e.2 ∈ alkeys (fields.foldl (fun uf f => uf.add f)
          (methods.foldl (fun uf m => uf.add m.name) newUnionFind)).parent := by
      intro e he
      unfold lcom4Edges at he
      obtain ⟨m, hm, hmem⟩ := List.mem_flatMap.mp he
      obtain ⟨f, hf, hef⟩ := List.mem_map.mp hmem
      subst hef
      rw [hk1']
      exact ⟨List.mem_append_left _ (List.mem_map.mpr ⟨m, hm, rfl⟩),
        List.mem_append_right _ (husage m hm f hf)⟩
    obtain ⟨hwf2, hk2, _⟩ := unionEdges_spec (lcom4Edges methods) _ hwf1 hedges
    have hres : calculateStructLCOM4 structName fileName fields methods =
        { StructName := structName, FilePath := fileName,
          LCOM4Score := (((lcom4Edges methods).foldl (fun u e => u.union e.1 e.2)
              (fields.foldl (fun uf f => uf.add f)
                (methods.foldl (fun uf m => uf.add m.name) newUnionFind))).getComponents.length : Int),
          ComponentDetails := ((lcom4Edges methods).foldl (fun u e => u.union e.1 e.2)
              (fields.foldl (fun uf f => uf.add f)
                (methods.foldl (fun uf m => uf.add m.name) newUnionFind))).getComponents } := by
      unfold calculateStructLCOM4
      rw [if_neg hlen]
      simp only [lcom4_union_fold]
    obtain ⟨hperm, _, _, _⟩ := getComponents_spec _ hwf2
    rw [hres]
    refine ⟨?_, rfl⟩
    simp only
    rw [← hk1', ← hk2]
    exact hperm

/-! ### Claim C3: dependency depth vs import lists

`CalculateDependencyDepth` decides whether a package gets depth 0 with
`len(dep.Imports) > 0`, which counts ALL imports, external ones
included, while the DFS only recurses into in-project imports.  A
package importing only external packages therefore gets depth 1, not 0:
the invariant the code actually maintains is depth 0 iff the import
list is empty. -/

/-- The import list the DFS sees for a package key (empty for an
unknown key, matching `deps[pkgPath]` returning `nil`). -/
def importsOf (pkgDeps : List (String × PackageDependency))
    (p : String) : List String :=
  match (pkgDeps.find? (fun q => q.1 = p)).map Prod.snd with
  | some dep => dep.Imports
  | none => []

/-- The DFS invariant: every visited package has depth 0 exactly when
its import list is empty. -/
def DepthInv (pkgDeps : List (String × PackageDependency))
    (st : DepthState) : Prop :=
  ∀ q ∈ st.visited, (alget st.depths q 0 = 0 ↔ importsOf pkgDeps q = [])

/-- Joint postcondition of one DFS call: the depth invariant is kept,
the in-progress stack is restored exactly, the visited set only grows,
and a node visited during the call was not on the in-progress stack at
entry. -/
def DfsPost (pkgDeps : List (String × PackageDependency))
    (st st' : DepthState) : Prop :=
  DepthInv pkgDeps st' ∧
  st'.inProgress = st.inProgress ∧
  (∀ q ∈ st.visited, q ∈ st'.visited) ∧
  (∀ q ∈ st'.visited, q ∈ st.visited ∨ q ∉ st.inProgress)

theorem dfsPost_id (pkgDeps : List (String × PackageDependency))
    (st : DepthState) (h : DepthInv pkgDeps st) : DfsPost pkgDeps st st :=
  ⟨h, rfl, fun _ hq => hq, fun _ hq => Or.inl hq⟩

theorem dfsPost_trans (pkgDeps : List (String × PackageDependency))
    (st st' st'' : DepthState) (h1 : DfsPost pkgDeps st st')
    (h2 : DfsPost pkgDeps st' st'') : DfsPost pkgDeps st st'' := by
  obtain ⟨_, hip1, hgrow1, hnew1⟩ := h1
  obtain ⟨hinv2, hip2, hgrow2, hnew2⟩ := h2
  refine ⟨hinv2, hip2.trans hip1, fun q hq => hgrow2 q (hgrow1 q hq), ?_⟩
  intro q hq
  rcases hnew2 q hq with hq' | hq'
  · exact hnew1 q hq'
  · exact Or.inr (hip1 ▸ hq')

theorem dfs_inv (pkgDeps : List (String × PackageDependency)) (proj : String)
    (fullToRel : List (String × String)) :
    ∀ fuel : Nat,
      (∀ (st : DepthState) (p : String), DepthInv pkgDeps st →
        DfsPost pkgDeps st (dfsPkg pkgDeps proj fullToRel fuel st p).2 ∧
        (fuel ≠ 0 → p ∈ st.inProgress ∨
          p ∈ (dfsPkg pkgDeps proj fullToRel fuel st p).2.visited)) ∧
      (∀ (st : DepthState) (imports : List String), DepthInv pkgDeps st →
        DfsPost pkgDeps st
          (dfsImports pkgDeps proj fullToRel fuel st imports).2) := by
  intro fuel
  induction fuel with
  | zero =>
    constructor
    · intro st p h
      simp only [dfsPkg]
      exact ⟨dfsPost_id pkgDeps st h, fun hf => absurd rfl hf⟩
    · intro st imports h
      induction imports generalizing st with
      | nil =>
        simp only [dfsImports]
        exact dfsPost_id pkgDeps st h
      | cons imp rest ih =>
        simp only [dfsImports]
        by_cases hs : strStartsWith imp proj
        · rw [if_pos hs]
          cases hrel : fullToRel.find? (fun p => p.1 = imp) with
          | none => exact ih st h
          | some rel =>
            simp only [dfsPkg]
            exact ih st h
        · rw [if_neg hs]
          exact ih st h
  | succ f ihf =>
    have pkgPart : ∀ (st : DepthState) (p : String), DepthInv pkgDeps st →
        DfsPost pkgDeps st (dfsPkg pkgDeps proj fullToRel (f + 1) st p).2 ∧
        (f + 1 ≠ 0 → p ∈ st.inProgress ∨
          p ∈ (dfsPkg pkgDeps proj fullToRel (f + 1) st p).2.visited) := by
      intro st p h
      simp only [dfsPkg]
      by_cases hv : p ∈ st.visited
      · rw [if_pos hv]
        exact ⟨dfsPost_id pkgDeps st h, fun _ => Or.inr hv⟩
      rw [if_neg hv]
      by_cases hip : p ∈ st.inProgress
      · rw [if_pos hip]
        exact ⟨dfsPost_id pkgDeps st h, fun _ => Or.inl hip⟩
      rw [if_neg hip]
      have h1 : DepthInv pkgDeps
          { st with inProgress := p :: st.inProgress } := h
      cases hdep : (pkgDeps.find? (fun q => q.1 = p)).map Prod.snd with
      | none =>
        have himp : importsOf pkgDeps p = [] := by
          unfold importsOf
          rw [hdep]
        refine ⟨⟨?_, ?_, ?_, ?_⟩, fun _ => Or.inr (List.mem_cons_self _ _)⟩
        · intro q hq
          rcases List.mem_cons.mp hq with hq | hq
          · subst hq
            rw [alget_alset, if_pos rfl]
            simpa using himp
          · rw [alget_alset, if_neg (fun hqp => hv (by rw [← hqp]; exact hq))]
            exact h q hq
        · show (p :: st.inProgress).erase p = st.inProgress
          exact List.erase_cons_head p st.inProgress
        · intro q hq
          exact List.mem_cons_of_mem _ hq
        · intro q hq
          rcases List.mem_cons.mp hq with hq | hq
          · exact Or.inr (hq ▸ hip)
          · exact Or.inl hq
      | some dep =>
        have himp : importsOf pkgDeps p = dep.Imports := by
          unfold importsOf
          rw [hdep]
        obtain ⟨hr1, hr2, hr3, hr4⟩ :=
          ihf.2 { st with inProgress := p :: st.inProgress } dep.Imports h1
        set r := dfsImports pkgDeps proj fullToRel f
          { st with inProgress := p :: st.inProgress } dep.Imports with hrdef
        have hqnep : ∀ q ∈ r.2.visited, ¬ q = p := by
          intro q hq hqp
          subst hqp
          rcases hr4 q hq with hq' | hq'
          · exact hv hq'
          · exact hq' (List.mem_cons_self _ _)
        have hd0 : (if r.1 > 0 ∨ decide (dep.Imports.length > 0) = true
            then r.1 + 1 else 0) = 0 ↔ dep.Imports = [] := by
          by_cases hil : dep.Imports = []
          · rw [hrdef, hil]
            simp [dfsImports]
          · rw [if_pos (Or.inr (by
              simpa using List.length_pos.mpr (by
                intro hc
                exact hil hc)))]
            simp [hil]
        refine ⟨⟨?_, ?_, ?_, ?_⟩, fun _ => Or.inr (List.mem_cons_self _ _)⟩
        · intro q hq
          rcases List.mem_cons.mp hq with hq | hq
          · subst hq
            rw [alget_alset, if_pos rfl, himp]
            exact hd0
          · rw [alget_alset, if_neg (hqnep q hq)]
            exact hr1 q hq
        · show r.2.inProgress.erase p = st.inProgress
          rw [hr2]
          exact List.erase_cons_head p st.inProgress
        · intro q hq
          exact List.mem_cons_of_mem _ (hr3 q hq)
        · intro q hq
          rcases List.mem_cons.mp hq with hq | hq
          · exact Or.inr (hq ▸ hip)
          · rcases hr4 q hq with hq' | hq'
            · exact Or.inl hq'
            · exact Or.inr (fun hc => hq' (List.mem_cons_of_mem _ hc))
    refine ⟨pkgPart, ?_⟩
    intro st imports h
    induction imports generalizing st with
    | nil =>
      simp only [dfsImports]
      exact dfsPost_id pkgDeps st h
    | cons imp rest ih =>
      simp only [dfsImports]
      by_cases hs : strStartsWith imp proj
      · rw [if_pos hs]
        cases hrel : fullToRel.find? (fun p => p.1 = imp) with
        | none => exact ih st h
        | some rel =>
          obtain ⟨hc, _⟩ := pkgPart st rel.2 h
          exact dfsPost_trans pkgDeps st _ _ hc
            (ih (dfsPkg pkgDeps proj fullToRel (f + 1) st rel.2).2 hc.1)
      · rw [if_neg hs]
        exact ih st h

theorem depthFold_inv (pkgDeps : List (String × PackageDependency))
    (proj : String) (fullToRel : List (String × String)) (f : Nat) :
    ∀ (l : List (String × PackageDependency)) (st : DepthState),
      DepthInv pkgDeps st → st.inProgress = [] →
      DepthInv pkgDeps (l.foldl (fun (st : DepthState) p =>
          if p.1 ∈ st.visited then st
          else (dfsPkg pkgDeps proj fullToRel (f + 1) st p.1).2) st) ∧
      (l.foldl (fun (st : DepthState) p =>
          if p.1 ∈ st.visited then st
          else (dfsPkg pkgDeps proj fullToRel (f + 1) st p.1).2) st).inProgress = [] ∧
      (∀ q ∈ st.visited, q ∈ (l.foldl (fun (st : DepthState) p =>
          if p.1 ∈ st.visited then st
          else (dfsPkg pkgDeps proj fullToRel (f + 1) st p.1).2) st).visited) ∧
      (∀ p ∈ l, p.1 ∈ (l.foldl (fun (st : DepthState) p =>
          if p.1 ∈ st.visited then st
          else (dfsPkg pkgDeps proj fullToRel (f + 1) st p.1).2) st).visited) := by
  intro l
  induction l with
  | nil =>
    intro st h hip
    exact ⟨h, hip, fun q hq => hq, by simp⟩
  | cons e rest ih =>
    intro st h hip
    rw [List.foldl_cons]
    by_cases hv : e.1 ∈ st.visited
    · rw [if_pos hv]
      obtain ⟨h1, h2, h3, h4⟩ := ih st h hip
      refine ⟨h1, h2, h3, ?_⟩
      intro p hp
      rcases List.mem_cons.mp hp with hp | hp
      · rw [hp]
        exact h3 e.1 hv
      · exact h4 p hp
    · rw [if_neg hv]
      obtain ⟨⟨hs1, hs2, hs3, _⟩, hs5⟩ :=
        (dfs_inv pkgDeps proj fullToRel (f + 1)).1 st e.1 h
      have hmem : e.1 ∈ (dfsPkg pkgDeps proj fullToRel (f + 1) st e.1).2.visited := by
        rcases hs5 (Nat.succ_ne_zero f) with hc | hc
        · rw [hip] at hc
          exact absurd hc (List.not_mem_nil _)
        · exact hc
      obtain ⟨h1, h2, h3, h4⟩ :=
        ih (dfsPkg pkgDeps proj fullToRel (f + 1) st e.1).2 hs1 (hs2.trans hip)
      refine ⟨h1, h2, fun q hq => h3 q (hs3 q hq), ?_⟩
      intro p hp
      rcases List.mem_cons.mp hp with hp | hp
      · rw [hp]
        exact h3 e.1 hmem
      · exact h4 p hp

/-- Counterexample to claim C3 as stated: a package whose only import
is the external "fmt" — so it has no in-project import at all — is
assigned depth 1 by `CalculateDependencyDepth`, not 0, because the
code's zero test `len(dep.Imports) > 0` counts external imports too. -/
theorem depth_external_imports_counterexample :
    (["fmt"].filter (fun s => strStartsWith s "m")) = [] ∧
    CalculateDependencyDepth [("a", ⟨"m/a", ["fmt"], []⟩)] "m" = [("a", 1)] := by
  constructor
  · decide
  · simp [CalculateDependencyDepth, fullToRelPath, dfsPkg, dfsImports,
      strStartsWith, alset, alget]

/-- Claim C3 (amended): for every package key, the dependency-depth
computation assigns depth 0 exactly when the package's import list is
empty — ALL imports count, external ones included, although the DFS
only recurses into in-project ones — and for the 3-package in-project
chain a→b→c the depths are a=2, b=1, c=0. -/
theorem dependency_depth_zero_iff_empty_imports :
    (∀ (pkgDeps : List (String × PackageDependency)) (proj : String),
      ∀ p ∈ alkeys pkgDeps,
        (alget (CalculateDependencyDepth pkgDeps proj) p 0 = 0 ↔
          importsOf pkgDeps p = [])) ∧
    CalculateDependencyDepth
        [("a", ⟨"m/a", ["m/b"], []⟩), ("b", ⟨"m/b", ["m/c"], []⟩),
         ("c", ⟨"m/c", [], []⟩)] "m" =
      [("c", 0), ("b", 1), ("a", 2)] := by
  constructor
  · intro pkgDeps proj p hp
    obtain ⟨e, he, hep⟩ := List.mem_map.mp hp
    obtain ⟨h1, _, _, h4⟩ := depthFold_inv pkgDeps proj
      (fullToRelPath pkgDeps proj) pkgDeps.length pkgDeps ⟨[], [], []⟩
      (by intro q hq; exact absurd hq (List.not_mem_nil _)) rfl
    unfold CalculateDependencyDepth
    exact h1 p (by rw [← hep]; exact h4 e he)
  · simp [CalculateDependencyDepth, fullToRelPath, dfsPkg, dfsImports,
      strStartsWith, alset, alget]

end HealthAnalyzer
